import Mathlib

/-!
Verification development for the wordmill assembly-network library.

The embedding models the Python package `wordmill`:
* `wordmill/wordmill.py`   — plain node classes, the unchecked module-level
  `form_edge` / `split_word` helpers used by the generation algorithms
  (namespace `WW` below);
* `wordmill/node_types.py` — the typed edge protocol with kind checks and the
  asserting `Node.split_word` (namespace `NT` below);
* `wordmill/algorithms.py` — the five generation algorithms.

Python words are modelled as `List Char`; Python objects with identity are
modelled as entries of a `Graph` (a list of node records) addressed by their
index, so that the mutable neighbor lists become index lists updated by
explicit state passing.  Python exceptions are modelled as `Except` /
`Option` error results; the fueled loops return `outOfFuel` in place of
divergence.
-/

namespace Wordmill

abbrev Word := List Char

abbrev NodeId := Nat

/-- The four node classes of the library. -/
inductive Kind where
  | source
  | sink
  | inventory
  | machine
deriving DecidableEq, Repr

/-- One node object: its class, required input words, provided output words,
and the neighbor lists `_input_nodes` / `_output_nodes` (lists of object
references, here node indices; duplicates permitted). -/
structure NodeData where
  kind : Kind
  inputs : List Word
  outputs : List Word
  input_nodes : List NodeId
  output_nodes : List NodeId
deriving DecidableEq, Repr

/-- The heap of node objects; a `NodeId` is an index into this list. -/
abbrev Graph := List NodeData

/-- `Source.__init__`: outputs the one word, empty inputs. -/
def mkSource (w : Word) : NodeData := ⟨.source, [], [w], [], []⟩

/-- `Sink.__init__`: consumes the one word, empty outputs. -/
def mkSink (w : Word) : NodeData := ⟨.sink, [w], [], [], []⟩

/-- `Inventory.__init__`: word is both the input and the output. -/
def mkInventory (w : Word) : NodeData := ⟨.inventory, [w], [w], [], []⟩

/-- `Machine.__init__`: inputs `(left, right)`, output their concatenation. -/
def mkMachine (l r : Word) : NodeData := ⟨.machine, [l, r], [l ++ r], [], []⟩

/-- `Node.word`: `outputs[0]`, overridden on `Sink` to `inputs[0]`. -/
def nodeWord (n : NodeData) : Word :=
  match n.kind with
  | .sink => n.inputs.headD []
  | _ => n.outputs.headD []

/-- The word of the node stored at index `i` (empty for a dangling index). -/
def wordAt (g : Graph) (i : NodeId) : Word :=
  match g[i]? with
  | some n => nodeWord n
  | none => []

/-- Replace the node at index `i` by `f` of it (identity on a dangling index). -/
def updateNode (g : Graph) (i : NodeId) (f : NodeData → NodeData) : Graph :=
  match g[i]? with
  | some n => g.set i (f n)
  | none => g

/-- Allocate a new node object; its id is the previous heap size. -/
def addNode (g : Graph) (n : NodeData) : Graph × NodeId :=
  (g ++ [n], g.length)

/-- Record `j` in `i`'s `_output_nodes` (the bare append of
`wordmill.Node.form_outbound_edge`). -/
def pushOut (g : Graph) (i j : NodeId) : Graph :=
  updateNode g i (fun n => { n with output_nodes := n.output_nodes ++ [j] })

/-- Record `j` in `i`'s `_input_nodes` (the bare append of
`wordmill.Node.form_inbound_edge`). -/
def pushIn (g : Graph) (i j : NodeId) : Graph :=
  updateNode g i (fun n => { n with input_nodes := n.input_nodes ++ [j] })

/-- `Node.fully_connected`, identical in `wordmill.py` and `node_types.py`:
enough inbound nodes, inbound words cover the input set, enough outbound
nodes. -/
def fully_connected (g : Graph) (n : NodeData) : Bool :=
  if n.input_nodes.length < n.inputs.length then false
  else if 0 < (n.inputs.toFinset \ (n.input_nodes.map (wordAt g)).toFinset).card then false
  else if n.output_nodes.length < n.outputs.length then false
  else true

/-- `fully_connected` of the node stored at index `i`. -/
def fcAt (g : Graph) (i : NodeId) : Bool :=
  match g[i]? with
  | some n => fully_connected g n
  | none => false

/-- `Node.neighbors`: set union of the two neighbor lists. -/
def neighbors (g : Graph) (i : NodeId) : Finset NodeId :=
  match g[i]? with
  | some n => (n.input_nodes ++ n.output_nodes).toFinset
  | none => ∅

/-- Errors that surface while running the library code. -/
inductive RunError where
  | productMismatch      -- AssertionError / ValueError: no common product
  | kindViolation        -- ValueError: other_node has the wrong class
  | keyErr (w : Word)    -- KeyError on a dict lookup
  | invalidSplitPosition -- AssertionError: parameter pos out of valid range
  | standardAssert       -- AssertionError: word not in set of standard words
  | incompleteGraph      -- ValueError raised by discover; carries no node
  | badNode              -- attribute access on a dangling reference
  | outOfFuel            -- the fueled loop did not finish
deriving DecidableEq, Repr

namespace WW

/-- `wordmill.split_word`: the raw, unchecked slices. -/
def split_word (w : Word) (pos : Nat) : Word × Word :=
  (w.take pos, w.drop pos)

/-- `wordmill.form_edge`: asserts a shared product, then appends on both
sides with no kind check. -/
def form_edge (g : Graph) (i j : NodeId) : Except RunError Graph :=
  match g[i]?, g[j]? with
  | some s, some t =>
    if 0 < (s.outputs.toFinset ∩ t.inputs.toFinset).card then
      .ok (pushIn (pushOut g i j) j i)
    else
      .error .productMismatch
  | _, _ => .error .badNode

end WW

namespace NT

/-- `allowed_output_node_class_names` per class in `node_types.py`. -/
def allowedOut (k : Kind) (k' : Kind) : Bool :=
  match k with
  | .source => k' = .inventory
  | .sink => false
  | .inventory => k' = .sink || k' = .machine
  | .machine => k' = .inventory

/-- `allowed_input_node_class_names` per class in `node_types.py`. -/
def allowedIn (k : Kind) (k' : Kind) : Bool :=
  match k with
  | .source => false
  | .sink => k' = .inventory
  | .inventory => k' = .source || k' = .machine
  | .machine => k' = .inventory

/-- `node_types.Node.form_outbound_edge`: product check, then kind check,
then append to `self._output_nodes`. -/
def form_outbound_edge (g : Graph) (i j : NodeId) : Except RunError Graph :=
  match g[i]?, g[j]? with
  | some s, some t =>
    if (s.outputs.toFinset ∩ t.inputs.toFinset).card = 0 then
      .error .productMismatch
    else if ¬ allowedOut s.kind t.kind then
      .error .kindViolation
    else
      .ok (pushOut g i j)
  | _, _ => .error .badNode

/-- `node_types.Node.form_inbound_edge`: called on node `i` with producer
`j`; product check, then kind check, then append to `self._input_nodes`. -/
def form_inbound_edge (g : Graph) (i j : NodeId) : Except RunError Graph :=
  match g[i]?, g[j]? with
  | some s, some t =>
    if (t.outputs.toFinset ∩ s.inputs.toFinset).card = 0 then
      .error .productMismatch
    else if ¬ allowedIn s.kind t.kind then
      .error .kindViolation
    else
      .ok (pushIn g i j)
  | _, _ => .error .badNode

/-- `node_types.form_edge`: outbound side first, then inbound side.  A Python
exception aborts the second call but keeps the mutation done by the first, so
the result carries the graph reached so far together with the error, if any. -/
def form_edge (g : Graph) (i j : NodeId) : Graph × Option RunError :=
  match form_outbound_edge g i j with
  | .error e => (g, some e)
  | .ok g1 =>
    match form_inbound_edge g1 j i with
    | .error e => (g1, some e)
    | .ok g2 => (g2, none)

/-- `node_types.Node.split_word`: asserts `1 <= pos <= len(word) - 1`. -/
def split_word (w : Word) (pos : Nat) : Except RunError (Word × Word) :=
  if 1 ≤ pos ∧ pos ≤ w.length - 1 then
    .ok (w.take pos, w.drop pos)
  else
    .error .invalidSplitPosition

end NT

/-! ## Discovery (`AssemblySystem.discover`, identical in both modules)

The Python worklist pops an arbitrary element of the `untreated` set, so the
traversal is modelled twice: as a nondeterministic step relation `DStep`
(any element may be popped) for order-independence results, and as an
executable fueled loop that pops the minimum (one admissible order). -/

/-- Every neighbor reference points into the heap. -/
def wfB (g : Graph) : Bool :=
  g.all (fun n => (n.input_nodes ++ n.output_nodes).all (fun j => j < g.length))

/-- Reachability from the seed set along the (undirected) neighbor relation:
exactly the nodes the worklist can ever discover. -/
inductive Reach (g : Graph) (seeds : Finset NodeId) : NodeId → Prop where
  | seed {i} : i ∈ seeds → Reach g seeds i
  | step {i j} : Reach g seeds i → j ∈ neighbors g i → Reach g seeds j

/-- `R` is the least superset of `seeds` closed under the neighbor relation. -/
def IsReachClosure (g : Graph) (seeds R : Finset NodeId) : Prop :=
  seeds ⊆ R ∧ (∀ i ∈ R, neighbors g i ⊆ R) ∧
    ∀ S : Finset NodeId, seeds ⊆ S → (∀ i ∈ S, neighbors g i ⊆ S) → R ⊆ S

/-- One iteration of the `discover` while-loop: pop any `n` from the
untreated set, merge `n.neighbors - discovered` into it, add `n` to the
discovered set. -/
def DStep (g : Graph) (p q : Finset NodeId × Finset NodeId) : Prop :=
  ∃ n ∈ p.1, q = ((p.1.erase n) ∪ (neighbors g n \ p.2), insert n p.2)

/-- Loop invariant of the worklist: everything seen is reachable, the seeds
are still seen, and each discovered node's neighbors are seen. -/
def DInv (g : Graph) (seeds : Finset NodeId) (p : Finset NodeId × Finset NodeId) : Prop :=
  (∀ x ∈ p.1 ∪ p.2, Reach g seeds x) ∧ seeds ⊆ p.1 ∪ p.2 ∧
    ∀ x ∈ p.2, neighbors g x ⊆ p.1 ∪ p.2

/-- The executable worklist: pops the minimum untreated node (one of the
orders the Python `set.pop` may produce), with explicit fuel. -/
def discoverLoop (g : Graph) : Nat → Finset NodeId → Finset NodeId →
    Except RunError (Finset NodeId)
  | 0, _, _ => .error .outOfFuel
  | fuel + 1, u, d =>
    if h : u.Nonempty then
      let n := u.min' h
      discoverLoop g fuel ((u.erase n) ∪ (neighbors g n \ d)) (insert n d)
    else
      .ok d

/-- Fuel that always suffices for a well-formed graph and valid seeds. -/
def discoverFuel (g : Graph) (seeds : Finset NodeId) : Nat :=
  g.length * (g.length + 1) + seeds.card + 1

/-- `AssemblySystem.discover`: run the worklist to closure, then validate
every discovered node, raising one constant `ValueError` otherwise. -/
def discover (g : Graph) (seeds : Finset NodeId) : Except RunError (Finset NodeId) :=
  match discoverLoop g (discoverFuel g seeds) seeds ∅ with
  | .error e => .error e
  | .ok d => if ∀ i ∈ d, fcAt g i = true then .ok d else .error .incompleteGraph

/-! ## Generation algorithms (`wordmill/algorithms.py`)

The algorithms receive the `sources` / `sinks` dicts as association lists in
insertion order.  The Python worklist `inventories_to_supply` appends at the
end and pops from the end; it is modelled as a stack whose head is the next
pop.  `while` loops become fueled recursions (`outOfFuel` in place of
divergence, which the library can actually exhibit). -/

/-- Ordered dict lookup. -/
def alookup {κ : Type} [DecidableEq κ] : List (κ × NodeId) → κ → Option NodeId
  | [], _ => none
  | p :: rest, k => if p.1 = k then some p.2 else alookup rest k

/-- Ordered dict assignment: replace in place or append. -/
def aupsert {κ : Type} [DecidableEq κ] : List (κ × NodeId) → κ → NodeId → List (κ × NodeId)
  | [], k, v => [(k, v)]
  | p :: rest, k, v => if p.1 = k then (k, v) :: rest else p :: aupsert rest k v

/-- The opening loop shared by linear and component generation: one fresh
`Inventory` per sink, wired to it and pushed on the worklist. -/
def sinkLoop (g : Graph) : List (Word × NodeId) → List NodeId →
    Except RunError (Graph × List NodeId)
  | [], queue => .ok (g, queue)
  | (w, sid) :: rest, queue =>
    let (g1, inv) := addNode g (mkInventory w)
    match WW.form_edge g1 inv sid with
    | .error e => .error e
    | .ok g2 => sinkLoop g2 rest (inv :: queue)

/-- Body of the `form_linear_assembly` while-loop for one popped inventory. -/
def linearStep (sources : List (Word × NodeId)) (g : Graph) (invId : NodeId) :
    Except RunError (Graph × List NodeId) := do
  let w := wordAt g invId
  let (wl, wr) := WW.split_word w 1
  let (g, m) := addNode g (mkMachine wl wr)
  let g ← WW.form_edge g m invId
  let (g, invL) := addNode g (mkInventory wl)
  match alookup sources wl with
  | none => .error (.keyErr wl)
  | some srcL => do
    let g ← WW.form_edge g srcL invL
    let g ← WW.form_edge g invL m
    let (g, invR) := addNode g (mkInventory wr)
    let g ← WW.form_edge g invR m
    match alookup sources wr with
    | some srcR => do
      let g ← WW.form_edge g srcR invR
      .ok (g, [])
    | none => .ok (g, [invR])

/-- The while-loop of `form_linear_assembly`. -/
def linearRun (sources : List (Word × NodeId)) : Nat → Graph → List NodeId →
    Except RunError Graph
  | 0, _, _ => .error .outOfFuel
  | fuel + 1, g, queue =>
    match queue with
    | [] => .ok g
    | invId :: rest =>
      match linearStep sources g invId with
      | .error e => .error e
      | .ok (g', pushes) => linearRun sources fuel g' (pushes ++ rest)

/-- `form_linear_assembly`. -/
def form_linear_assembly (sources sinks : List (Word × NodeId)) (g : Graph)
    (fuel : Nat) : Except RunError Graph := do
  let (g, queue) ← sinkLoop g sinks []
  linearRun sources fuel g queue

/-- Body of the `form_component_assembly` while-loop. -/
def componentStep (sources : List (Word × NodeId)) (g : Graph) (invId : NodeId) :
    Except RunError (Graph × List NodeId) :=
  let w := wordAt g invId
  match alookup sources w with
  | some src =>
    match WW.form_edge g src invId with
    | .error e => .error e
    | .ok g => .ok (g, [])
  | none =>
    let (wl, wr) := WW.split_word w (w.length / 2)
    let (g, m) := addNode g (mkMachine wl wr)
    match WW.form_edge g m invId with
    | .error e => .error e
    | .ok g =>
      let (g, invL) := addNode g (mkInventory wl)
      match WW.form_edge g invL m with
      | .error e => .error e
      | .ok g =>
        let (g, invR) := addNode g (mkInventory wr)
        match WW.form_edge g invR m with
        | .error e => .error e
        -- append(inv_left) then append(inv_right): the right one is popped first
        | .ok g => .ok (g, [invR, invL])

/-- The while-loop of `form_component_assembly`. -/
def componentRun (sources : List (Word × NodeId)) : Nat → Graph → List NodeId →
    Except RunError Graph
  | 0, _, _ => .error .outOfFuel
  | fuel + 1, g, queue =>
    match queue with
    | [] => .ok g
    | invId :: rest =>
      match componentStep sources g invId with
      | .error e => .error e
      | .ok (g', pushes) => componentRun sources fuel g' (pushes ++ rest)

/-- `form_component_assembly`. -/
def form_component_assembly (sources sinks : List (Word × NodeId)) (g : Graph)
    (fuel : Nat) : Except RunError Graph := do
  let (g, queue) ← sinkLoop g sinks []
  componentRun sources fuel g queue

/-! ### `AssemblySystem.generate` scaffolding -/

/-- `{w: Sink(w) for w in words}` — every `Sink` object is allocated, a
duplicate word replaces the dict value in place. -/
def mkSinksGo : List Word → Graph → List (Word × NodeId) → Graph × List (Word × NodeId)
  | [], g, acc => (g, acc)
  | w :: rest, g, acc =>
    let (g1, sid) := addNode g (mkSink w)
    mkSinksGo rest g1 (aupsert acc w sid)

def mkSinks (words : List Word) (g : Graph) : Graph × List (Word × NodeId) :=
  mkSinksGo words g []

/-- `set(itertools.chain(*words))`: the distinct characters of the output
words. -/
def charsOf (words : List Word) : List Char :=
  (words.foldr (· ++ ·) []).dedup

/-- `{inp: Source(inp) for inp in set(chain(*words))}`. -/
def mkSourcesGo : List Char → Graph → List (Word × NodeId) → Graph × List (Word × NodeId)
  | [], g, acc => (g, acc)
  | c :: rest, g, acc =>
    let (g1, sid) := addNode g (mkSource [c])
    mkSourcesGo rest g1 (aupsert acc [c] sid)

def mkSources (cs : List Char) (g : Graph) : Graph × List (Word × NodeId) :=
  mkSourcesGo cs g []

/-- `AssemblySystem.generate(form_linear_assembly, *words)` followed by the
final `discover(sources.values())`: returns the heap and the discovered
node set. -/
def generate_linear (words : List Word) (fuel : Nat) :
    Except RunError (Graph × Finset NodeId) := do
  let (g, sinks) := mkSinks words []
  let (g, sources) := mkSources (charsOf words) g
  let g ← form_linear_assembly sources sinks g fuel
  let seeds := (sources.map (·.2)).toFinset
  let d ← discover g seeds
  .ok (g, d)

/-- `AssemblySystem.generate(form_component_assembly, *words)`. -/
def generate_component (words : List Word) (fuel : Nat) :
    Except RunError (Graph × Finset NodeId) := do
  let (g, sinks) := mkSinks words []
  let (g, sources) := mkSources (charsOf words) g
  let g ← form_component_assembly sources sinks g fuel
  let seeds := (sources.map (·.2)).toFinset
  let d ← discover g seeds
  .ok (g, d)

/-! ### `form_bio_inspired_assembly` -/

/-- Worklist state of the bio-inspired builder.  The Python code keys both
inventories (by word) and machines (by `(left, right)` tuple) in the single
dict `created_inventories`; string and tuple keys can never collide, so the
two key spaces are split into two maps. -/
structure BioState where
  g : Graph
  queue : List NodeId
  invMap : List (Word × NodeId)
  machMap : List ((Word × Word) × NodeId)
deriving Repr

/-- Sink loop of the bio-inspired builder: fresh inventory per sink, wired,
pushed, and registered in `created_inventories`. -/
def bioSinkLoop : List (Word × NodeId) → BioState → Except RunError BioState
  | [], st => .ok st
  | (w, sid) :: rest, st =>
    let (g1, inv) := addNode st.g (mkInventory w)
    match WW.form_edge g1 inv sid with
    | .error e => .error e
    | .ok g2 =>
      bioSinkLoop rest
        { st with g := g2, queue := inv :: st.queue, invMap := (w, inv) :: st.invMap }

/-- The get-or-create of a machine in `created_inventories` (tuple keys):
reuse the registered machine or allocate and register a fresh one. -/
def bioGetMachine (st : BioState) (wl wr : Word) : BioState × NodeId :=
  match alookup st.machMap (wl, wr) with
  | some m => (st, m)
  | none =>
    ({ st with g := st.g ++ [mkMachine wl wr],
               machMap := ((wl, wr), st.g.length) :: st.machMap }, st.g.length)

/-- The get-or-create of an inventory in `created_inventories` (word keys):
reuse the registered inventory, or allocate, push for supply and register a
fresh one. -/
def bioGetInventory (st : BioState) (w : Word) : BioState × NodeId :=
  match alookup st.invMap w with
  | some l => (st, l)
  | none =>
    ({ st with g := st.g ++ [mkInventory w],
               queue := st.g.length :: st.queue,
               invMap := (w, st.g.length) :: st.invMap }, st.g.length)

/-- `for i in range(1, len(w))` of the bio-inspired builder: one machine
(reused per `(left, right)` pair) and the two feeding inventories (reused per
word, pushed for supply when created) per split position. -/
def bioSplits (invId : NodeId) (w : Word) :
    List Nat → BioState → Except RunError BioState
  | [], st => .ok st
  | i :: is, st =>
    let wl := (WW.split_word w i).1
    let wr := (WW.split_word w i).2
    let st1 := (bioGetMachine st wl wr).1
    let m := (bioGetMachine st wl wr).2
    match WW.form_edge st1.g m invId with
    | .error e => .error e
    | .ok g2 =>
      let st2 := (bioGetInventory { st1 with g := g2 } wl).1
      let invL := (bioGetInventory { st1 with g := g2 } wl).2
      match WW.form_edge st2.g invL m with
      | .error e => .error e
      | .ok g3 =>
        let st3 := (bioGetInventory { st2 with g := g3 } wr).1
        let invR := (bioGetInventory { st2 with g := g3 } wr).2
        match WW.form_edge st3.g invR m with
        | .error e => .error e
        | .ok g4 => bioSplits invId w is { st3 with g := g4 }

/-- Body of the bio-inspired while-loop for one popped inventory. -/
def bioStep (sources : List (Word × NodeId)) (st : BioState) (invId : NodeId) :
    Except RunError BioState :=
  let w := wordAt st.g invId
  match alookup sources w with
  | some src =>
    match WW.form_edge st.g src invId with
    | .error e => .error e
    | .ok g' => .ok { st with g := g' }
  | none => bioSplits invId w ((List.range (w.length - 1)).map (· + 1)) st

/-- The while-loop of `form_bio_inspired_assembly`. -/
def bioRun (sources : List (Word × NodeId)) : Nat → BioState → Except RunError BioState
  | 0, _ => .error .outOfFuel
  | fuel + 1, st =>
    match st.queue with
    | [] => .ok st
    | invId :: rest =>
      match bioStep sources { st with queue := rest } invId with
      | .error e => .error e
      | .ok st' => bioRun sources fuel st'

/-- `form_bio_inspired_assembly`. -/
def form_bio_inspired_assembly (sources sinks : List (Word × NodeId)) (g : Graph)
    (fuel : Nat) : Except RunError Graph :=
  match bioSinkLoop sinks ⟨g, [], [], []⟩ with
  | .error e => .error e
  | .ok st =>
    match bioRun sources fuel st with
    | .error e => .error e
    | .ok st => .ok st.g

/-- `AssemblySystem.generate(form_bio_inspired_assembly, *words)`. -/
def generate_bio (words : List Word) (fuel : Nat) :
    Except RunError (Graph × Finset NodeId) :=
  let sinks := (mkSinks words []).2
  let sources := (mkSources (charsOf words) (mkSinks words []).1).2
  let g0 := (mkSources (charsOf words) (mkSinks words []).1).1
  match form_bio_inspired_assembly sources sinks g0 fuel with
  | .error e => .error e
  | .ok g =>
    match discover g ((sources.map (·.2)).toFinset) with
    | .error e => .error e
    | .ok d => .ok (g, d)

/-! ### `form_product_focussed_team_assembly` -/

/-- State of one team build.  `invMapPairs` holds the tuple-keyed entries the
Python code writes into `created_inventories`; `machMap` is the separate
`created_machines` dict, which the code consults but never fills. -/
structure TeamState where
  g : Graph
  queue : List NodeId
  invMap : List (Word × NodeId)
  invMapPairs : List ((Word × Word) × NodeId)
  machMap : List ((Word × Word) × NodeId)
deriving Repr

/-- The `for i in range(1, len(w_out))` loop of phase one: a candidate
machine per split of the output word, with fresh private inventories. -/
def teamTopSplits (invId : NodeId) (w : Word) :
    List Nat → Graph → List (NodeId × NodeId) →
    Except RunError (Graph × List (NodeId × NodeId))
  | [], g, pairs => .ok (g, pairs)
  | i :: is, g, pairs =>
    let (wl, wr) := WW.split_word w i
    let (g, m) := addNode g (mkMachine wl wr)
    match WW.form_edge g m invId with
    | .error e => .error e
    | .ok g =>
      let (g, invL) := addNode g (mkInventory wl)
      let (g, invR) := addNode g (mkInventory wr)
      match WW.form_edge g invL m with
      | .error e => .error e
      | .ok g =>
        match WW.form_edge g invR m with
        | .error e => .error e
        | .ok g => teamTopSplits invId w is g (pairs ++ [(invL, invR)])

/-- Phase one over the sinks. -/
def teamPhase1 : List (Word × NodeId) → Graph → List (NodeId × NodeId) →
    Except RunError (Graph × List (NodeId × NodeId))
  | [], g, pairs => .ok (g, pairs)
  | (w, sid) :: rest, g, pairs =>
    let (g, inv) := addNode g (mkInventory w)
    match WW.form_edge g inv sid with
    | .error e => .error e
    | .ok g =>
      match teamTopSplits inv w ((List.range (w.length - 1)).map (· + 1)) g pairs with
      | .error e => .error e
      | .ok (g, pairs) => teamPhase1 rest g pairs

/-- The split loop of one team's inner while body.  Because
`created_machines` is never written, the reuse branch is dead and a fresh
machine is created per position, recorded under the tuple key. -/
def teamSplits (invId : NodeId) (w : Word) :
    List Nat → TeamState → Except RunError TeamState
  | [], st => .ok st
  | i :: is, st =>
    let (wl, wr) := WW.split_word w i
    let r : Except RunError (TeamState × NodeId) :=
      match alookup st.machMap (wl, wr) with
      | some _ =>
        match alookup st.invMapPairs (wl, wr) with
        | some m => .ok (st, m)
        | none => .error (.keyErr (wl ++ wr))
      | none =>
        let (g', m) := addNode st.g (mkMachine wl wr)
        .ok ({ st with g := g', invMapPairs := ((wl, wr), m) :: st.invMapPairs }, m)
    match r with
    | .error e => .error e
    | .ok (st1, m) =>
      match WW.form_edge st1.g m invId with
      | .error e => .error e
      | .ok g2 =>
        let (st2, invL) :=
          match alookup st1.invMap wl with
          | some l => ({ st1 with g := g2 }, l)
          | none =>
            let (g', l) := addNode g2 (mkInventory wl)
            ({ st1 with g := g', queue := l :: st1.queue, invMap := (wl, l) :: st1.invMap }, l)
        match WW.form_edge st2.g invL m with
        | .error e => .error e
        | .ok g3 =>
          let (st3, invR) :=
            match alookup st2.invMap wr with
            | some r => ({ st2 with g := g3 }, r)
            | none =>
              let (g', r) := addNode g3 (mkInventory wr)
              ({ st2 with g := g', queue := r :: st2.queue, invMap := (wr, r) :: st2.invMap }, r)
          match WW.form_edge st3.g invR m with
          | .error e => .error e
          | .ok g4 => teamSplits invId w is { st3 with g := g4 }

/-- One team's inner while-loop. -/
def teamRun (sources : List (Word × NodeId)) : Nat → TeamState → Except RunError TeamState
  | 0, _ => .error .outOfFuel
  | fuel + 1, st =>
    match st.queue with
    | [] => .ok st
    | invId :: rest =>
      let st0 : TeamState := { st with queue := rest }
      let w := wordAt st0.g invId
      let r : Except RunError TeamState :=
        match alookup sources w with
        | some src =>
          match WW.form_edge st0.g src invId with
          | .error e => .error e
          | .ok g' => .ok { st0 with g := g' }
        | none => teamSplits invId w ((List.range (w.length - 1)).map (· + 1)) st0
      match r with
      | .error e => .error e
      | .ok st' => teamRun sources fuel st'

/-- Phase two: one scoped rebuild per `(inv_left, inv_right)` pair. -/
def teamPhase2 (sources : List (Word × NodeId)) (fuel : Nat) :
    List (NodeId × NodeId) → Graph → Except RunError Graph
  | [], g => .ok g
  | (invL, invR) :: rest, g =>
    let wL := wordAt g invL
    let wR := wordAt g invR
    let st : TeamState :=
      { g := g, queue := [invR, invL],
        invMap := aupsert (aupsert [] wL invL) wR invR, invMapPairs := [], machMap := [] }
    match teamRun sources fuel st with
    | .error e => .error e
    | .ok st' => teamPhase2 sources fuel rest st'.g

/-- `form_product_focussed_team_assembly`. -/
def form_product_focussed_team_assembly (sources sinks : List (Word × NodeId))
    (g : Graph) (fuel : Nat) : Except RunError Graph := do
  let (g, pairs) ← teamPhase1 sinks g []
  teamPhase2 sources fuel pairs g

/-- `AssemblySystem.generate(form_product_focussed_team_assembly, *words)`. -/
def generate_team (words : List Word) (fuel : Nat) :
    Except RunError (Graph × Finset NodeId) := do
  let (g, sinks) := mkSinks words []
  let (g, sources) := mkSources (charsOf words) g
  let g ← form_product_focussed_team_assembly sources sinks g fuel
  let seeds := (sources.map (·.2)).toFinset
  let d ← discover g seeds
  .ok (g, d)

/-! ### `form_late_product_differentiation` -/

/-- `p` is a leading segment of `w`. -/
def hasLead : Word → Word → Bool
  | [], _ => true
  | _ :: _, [] => false
  | a :: p, b :: w => a = b && hasLead p w

/-- `w.index(p)`: first position at which `p` occurs in `w`. -/
def subIndex (p : Word) : Word → Option Nat
  | [] => if hasLead p [] then some 0 else none
  | b :: w' => if hasLead p (b :: w') then some 0 else (subIndex p w').map (· + 1)

/-- Python's substring test `p in w`. -/
def containsSub (p w : Word) : Bool := (subIndex p w).isSome

/-- One iteration of `get_longest_standard_product_in`'s loop: keep the
candidate `c` when it is a proper substring of `w` strictly longer than the
best seen so far. -/
def stdBetter (w : Word) (best : Option Word) (c : Word) : Option Word :=
  if decide (c ≠ w) && containsSub c w &&
      (match best with | none => true | some b => decide (b.length < c.length)) then
    some c
  else best

/-- `get_longest_standard_product_in`: fold over the standard words, keeping
the first strictly-longest proper substring of `w`. -/
def get_longest_standard_product_in (std : List Word) (w : Word) : Option Word :=
  std.foldl (stdBetter w) none

/-- Worklist state of the late-differentiation builder. -/
structure LateState where
  g : Graph
  queue : List NodeId
  stdMap : List (Word × NodeId)
deriving Repr

/-- `get_inventory_for_standard_product`: asserts the word is standard and
creates, queues and registers its inventory on first demand. -/
def getStdInv (std : List Word) (st : LateState) (w : Word) :
    Except RunError (LateState × NodeId) :=
  if w ∈ std then
    match alookup st.stdMap w with
    | some inv => .ok (st, inv)
    | none =>
      let (g', inv) := addNode st.g (mkInventory w)
      .ok ({ st with g := g', queue := inv :: st.queue, stdMap := (w, inv) :: st.stdMap }, inv)
  else .error .standardAssert

/-- `w[:w.index(wst)]`: the part of `w` before the matched standard word. -/
def lateHead (wst w : Word) : Word := w.take ((subIndex wst w).getD 0)

/-- `w[w.index(wst) + len(wst):]`: the part of `w` after the matched
standard word. -/
def lateTail (wst w : Word) : Word := w.drop ((subIndex wst w).getD 0 + wst.length)

/-- The head/tail side-inventory logic of the late-differentiation body:
an inventory for the side word `w'` (standard inventories via the helper,
other words as fresh queued inventories), or none if the side is empty. -/
def lateOptInv (std : List Word) (st : LateState) (w' : Word) :
    Except RunError (LateState × Option NodeId) :=
  if w'.length > 0 then
    if w' ∈ std then
      match getStdInv std st w' with
      | .error e => .error e
      | .ok (st', ih) => .ok (st', some ih)
    else
      let (g', ih) := addNode st.g (mkInventory w')
      .ok ({ st with g := g', queue := ih :: st.queue }, some ih)
  else .ok (st, none)

/-- The machine-building tail of the late-differentiation body: combine the
head, the matched standard word and the tail into `invId`'s word. -/
def lateCombine (std : List Word) (st2 : LateState) (invId : NodeId)
    (wst wHead wTail : Word) (headInv tailInv : Option NodeId) :
    Except RunError LateState :=
  if wHead.length > 0 ∧ wTail.length > 0 then
    match headInv, tailInv with
    | some ih, some it =>
      let (g, invInter) := addNode st2.g (mkInventory (wHead ++ wst))
      let (g, m1) := addNode g (mkMachine wHead wst)
      match WW.form_edge g m1 invInter with
      | .error e => .error e
      | .ok g =>
        match WW.form_edge g ih m1 with
        | .error e => .error e
        | .ok g =>
          match getStdInv std { st2 with g := g } wst with
          | .error e => .error e
          | .ok (st3, istd) =>
            match WW.form_edge st3.g istd m1 with
            | .error e => .error e
            | .ok g =>
              let (g, m2) := addNode g (mkMachine (wHead ++ wst) wTail)
              match WW.form_edge g invInter m2 with
              | .error e => .error e
              | .ok g =>
                match WW.form_edge g it m2 with
                | .error e => .error e
                | .ok g =>
                  match WW.form_edge g m2 invId with
                  | .error e => .error e
                  | .ok g => .ok { st3 with g := g }
    | _, _ => .error .badNode
  else if wHead.length > 0 then
    match headInv with
    | some ih =>
      let (g, m) := addNode st2.g (mkMachine wHead wst)
      match WW.form_edge g m invId with
      | .error e => .error e
      | .ok g =>
        match getStdInv std { st2 with g := g } wst with
        | .error e => .error e
        | .ok (st3, istd) =>
          match WW.form_edge st3.g istd m with
          | .error e => .error e
          | .ok g =>
            match WW.form_edge g ih m with
            | .error e => .error e
            | .ok g => .ok { st3 with g := g }
    | none => .error .badNode
  else if wTail.length > 0 then
    match tailInv with
    | some it =>
      let (g, m) := addNode st2.g (mkMachine wst wTail)
      match WW.form_edge g m invId with
      | .error e => .error e
      | .ok g =>
        match getStdInv std { st2 with g := g } wst with
        | .error e => .error e
        | .ok (st3, istd) =>
          match WW.form_edge st3.g istd m with
          | .error e => .error e
          | .ok g =>
            match WW.form_edge g it m with
            | .error e => .error e
            | .ok g => .ok { st3 with g := g }
    | none => .error .badNode
  else
    -- w equals the standard word: unreachable since wst ≠ w
    .ok st2

/-- The else-branch of the late-differentiation while body: synthesize the
non-raw word `w` for the inventory `invId`. -/
def lateSynth (std : List Word) (st : LateState) (invId : NodeId) (w : Word) :
    Except RunError LateState :=
  match get_longest_standard_product_in std w with
  | none =>
    -- fall back to the pos=1 split
    let (wl, wr) := WW.split_word w 1
    let (g, m) := addNode st.g (mkMachine wl wr)
    match WW.form_edge g m invId with
    | .error e => .error e
    | .ok g =>
      let (g, invL) := addNode g (mkInventory wl)
      match WW.form_edge g invL m with
      | .error e => .error e
      | .ok g =>
        let (g, invR) := addNode g (mkInventory wr)
        match WW.form_edge g invR m with
        | .error e => .error e
        | .ok g => .ok { st with g := g, queue := invR :: invL :: st.queue }
  | some wst =>
    match lateOptInv std st (lateHead wst w) with
    | .error e => .error e
    | .ok (st1, headInv) =>
      match lateOptInv std st1 (lateTail wst w) with
      | .error e => .error e
      | .ok (st2, tailInv) =>
        lateCombine std st2 invId wst (lateHead wst w) (lateTail wst w) headInv tailInv

/-- Body of the late-differentiation while-loop for one popped inventory. -/
def lateStep (std : List Word) (sources : List (Word × NodeId)) (st : LateState)
    (invId : NodeId) : Except RunError LateState :=
  let w := wordAt st.g invId
  match alookup sources w with
  | some src =>
    match WW.form_edge st.g src invId with
    | .error e => .error e
    | .ok g' => .ok { st with g := g' }
  | none => lateSynth std st invId w

/-- The while-loop of `form_late_product_differentiation`. -/
def lateRun (std : List Word) (sources : List (Word × NodeId)) :
    Nat → LateState → Except RunError LateState
  | 0, _ => .error .outOfFuel
  | fuel + 1, st =>
    match st.queue with
    | [] => .ok st
    | invId :: rest =>
      match lateStep std sources { st with queue := rest } invId with
      | .error e => .error e
      | .ok st' => lateRun std sources fuel st'

/-- The sink loop of `form_late_product_differentiation`: a standard output
word is read from `inventories_for_standard_products`, which is still empty
at that point — a `KeyError`. -/
def lateSinkLoop (std : List Word) : List (Word × NodeId) → LateState →
    Except RunError LateState
  | [], st => .ok st
  | (w, sid) :: rest, st =>
    let r : Except RunError (LateState × NodeId) :=
      if w ∈ std then
        match alookup st.stdMap w with
        | some inv => .ok (st, inv)
        | none => .error (.keyErr w)
      else
        let (g', inv) := addNode st.g (mkInventory w)
        .ok ({ st with g := g', queue := inv :: st.queue }, inv)
    match r with
    | .error e => .error e
    | .ok (st1, inv) =>
      match WW.form_edge st1.g inv sid with
      | .error e => .error e
      | .ok g2 => lateSinkLoop std rest { st1 with g := g2 }

/-- `form_late_product_differentiation`. -/
def form_late_product_differentiation (sources sinks : List (Word × NodeId))
    (std : List Word) (g : Graph) (fuel : Nat) : Except RunError Graph := do
  let st ← lateSinkLoop std sinks ⟨g, [], []⟩
  let st ← lateRun std sources fuel st
  .ok st.g

/-- `AssemblySystem.generate(form_late_product_differentiation, *words,
w_standard=std)`. -/
def generate_late (words : List Word) (std : List Word) (fuel : Nat) :
    Except RunError (Graph × Finset NodeId) := do
  let (g, sinks) := mkSinks words []
  let (g, sources) := mkSources (charsOf words) g
  let g ← form_late_product_differentiation sources sinks std g fuel
  let seeds := (sources.map (·.2)).toFinset
  let d ← discover g seeds
  .ok (g, d)

/-! ### Fixtures: calling the builders directly with a missing raw source
(output word `"ab"`, source mapping containing only `'a'`) -/

def missSources : List (Word × NodeId) := [(['a'], 1)]

def missSinks : List (Word × NodeId) := [(['a', 'b'], 0)]

def missG0 : Graph := [mkSink ['a', 'b'], mkSource ['a']]

/-- The heap after the component builder's first iteration on the
missing-source input: the worklist now heads with the unsupplied
`Inventory('b')`. -/
def compMissG1 : Graph :=
  [⟨.sink, [['a', 'b']], [], [2], []⟩,
   ⟨.source, [], [['a']], [], []⟩,
   ⟨.inventory, [['a', 'b']], [['a', 'b']], [3], [0]⟩,
   ⟨.machine, [['a'], ['b']], [['a', 'b']], [4, 5], [2]⟩,
   ⟨.inventory, [['a']], [['a']], [], [3]⟩,
   ⟨.inventory, [['b']], [['b']], [], [3]⟩]

/-- The late-differentiation state after two iterations on the
missing-source input: the worklist now heads with an `Inventory('')`. -/
def lateMissSt2 : LateState :=
  ⟨[⟨.sink, [['a', 'b']], [], [2], []⟩,
    ⟨.source, [], [['a']], [], []⟩,
    ⟨.inventory, [['a', 'b']], [['a', 'b']], [3], [0]⟩,
    ⟨.machine, [['a'], ['b']], [['a', 'b']], [4, 5], [2]⟩,
    ⟨.inventory, [['a']], [['a']], [], [3]⟩,
    ⟨.inventory, [['b']], [['b']], [6], [3]⟩,
    ⟨.machine, [['b'], []], [['b']], [7, 8], [5]⟩,
    ⟨.inventory, [['b']], [['b']], [], [6]⟩,
    ⟨.inventory, [[]], [[]], [], [6]⟩],
   [8, 7, 4], []⟩

/-- The graph the bio-inspired builder produces on the missing-source
input (it completes despite the gap). -/
def bioMissG : Graph :=
  (form_bio_inspired_assembly missSources missSinks missG0 30).toOption.getD []

/-- The heap of `generate(form_bio_inspired_assembly, 'ab', 'bc', 'abc')`. -/
def bioAbcG : Graph :=
  ((generate_bio [['a', 'b'], ['b', 'c'], ['a', 'b', 'c']] 99).toOption.map
    Prod.fst).getD []

/-- The discovered node set of the same generation. -/
def bioAbcD : Finset NodeId :=
  ((generate_bio [['a', 'b'], ['b', 'c'], ['a', 'b', 'c']] 99).toOption.map
    Prod.snd).getD ∅

/-- The graph the team builder produces on the missing-source input. -/
def teamMissG : Graph :=
  (form_product_focussed_team_assembly missSources missSinks missG0 30).toOption.getD []

/-! ## A toolkit for symbolic execution of the builders -/

/-- The immutable part of a node object: its class and word lists (only the
neighbor lists are ever mutated). -/
def shapeOf (n : NodeData) : Kind × List Word × List Word := (n.kind, n.inputs, n.outputs)

/-! ## The reuse invariant of the bio-inspired builder (claim C7) -/

/-- `created_inventories`' word-keyed entries are in bijection with the
inventory nodes of the heap. -/
def invGood (g : Graph) (invMap : List (Word × NodeId)) : Prop :=
  (∀ (w : Word) (id : NodeId), alookup invMap w = some id →
    ∃ n, g[id]? = some n ∧ n.kind = .inventory ∧ n.inputs = [w] ∧ n.outputs = [w]) ∧
  (∀ (id : NodeId) (n : NodeData), g[id]? = some n → n.kind = .inventory →
    alookup invMap (nodeWord n) = some id)

/-- The machine map is in bijection with the machine nodes of the heap,
keyed by their `(left, right)` input pair. -/
def machGood (g : Graph) (machMap : List ((Word × Word) × NodeId)) : Prop :=
  (∀ (p : Word × Word) (id : NodeId), alookup machMap p = some id →
    ∃ n, g[id]? = some n ∧ n.kind = .machine ∧ n.inputs = [p.1, p.2]) ∧
  (∀ (id : NodeId) (n : NodeData), g[id]? = some n → n.kind = .machine →
    ∃ l r, n.inputs = [l, r] ∧ alookup machMap (l, r) = some id)

def BioInv (st : BioState) : Prop := invGood st.g st.invMap ∧ machGood st.g st.machMap

/-- The heap holds no inventory or machine objects (true of the sink/source
heap `generate` hands to each builder). -/
def noInvMach (g : Graph) : Prop :=
  ∀ (id : NodeId) (n : NodeData), g[id]? = some n →
    n.kind ≠ .inventory ∧ n.kind ≠ .machine

/-- The looping shape: the next pop is an inventory holding word `w`, and
processing it pushes a fresh inventory for the same word back on top. -/
def wordLoopInv (w : Word) (g : Graph) (queue : List NodeId) : Prop :=
  ∃ i rest n, queue = i :: rest ∧ g[i]? = some n ∧ n.kind = .inventory ∧
    n.inputs = [w] ∧ n.outputs = [w]

/-! ## Claims C2 and C10: the typed edge protocol of `node_types.py` -/

/-- The input/output word lists fixed by the four class constructors. -/
def wfShape (n : NodeData) : Prop :=
  (n.kind = .source ∧ n.inputs = []) ∨
  (n.kind = .sink ∧ n.outputs = []) ∨
  (n.kind = .inventory ∧ ∃ w, n.inputs = [w] ∧ n.outputs = [w]) ∨
  (n.kind = .machine ∧ ∃ l r, n.inputs = [l, r] ∧ n.outputs = [l ++ r])

/-- The shapes of the nodes allocated after `g`'s end. -/
def addedShapes (g g' : Graph) : List (Kind × List Word × List Word) :=
  (g'.drop g.length).map shapeOf

/-- The `[left, right]` input pairs of the machines allocated after `g`'s
end. -/
def addedMachineInputs (g g' : Graph) : List (List Word) :=
  (addedShapes g g').filterMap (fun s => if s.1 = Kind.machine then some s.2.1 else none)

/-- The words of the inventories allocated after `g`'s end. -/
def addedInventoryWords (g g' : Graph) : List Word :=
  (addedShapes g g').filterMap
    (fun s => if s.1 = Kind.inventory then some (s.2.2.headD []) else none)

/-- `g'` extends `g`: it is at least as long and keeps the shape of every
node of `g`. -/
def ShapeExt (g g' : Graph) : Prop :=
  g.length ≤ g'.length ∧
    ∀ k : NodeId, k < g.length → (g'[k]?).map shapeOf = (g[k]?).map shapeOf

/-- A one-inventory state holding the output word `"abcd"`. -/
def c8DemoG : LateState := ⟨[mkInventory ['a', 'b', 'c', 'd']], [], []⟩

/-- The state after synthesizing `"abcd"` against the standard set
`{"bc"}`. -/
def c8Demo : LateState :=
  (lateSynth [['b', 'c']] c8DemoG 0 ['a', 'b', 'c', 'd']).toOption.getD c8DemoG

theorem reach_subset_closed {g : Graph} {seeds S : Finset NodeId}
    (hseed : seeds ⊆ S) (hcl : ∀ i ∈ S, neighbors g i ⊆ S) :
    ∀ x, Reach g seeds x → x ∈ S := by
  intro x h
  induction h with
  | seed h => exact hseed h
  | step _ hj ih => exact hcl _ ih hj

theorem isReachClosure_iff_mem {g : Graph} {seeds R : Finset NodeId} :
    IsReachClosure g seeds R ↔ ∀ x, x ∈ R ↔ Reach g seeds x := by
  constructor
  · rintro ⟨hseed, hcl, hleast⟩ x
    constructor
    · intro hx
      -- every member of the least closed set is reachable
      classical
      by_contra hnr
      have hsub : R ⊆ R.filter (fun y => Reach g seeds y) := by
        apply hleast
        · intro y hy
          exact Finset.mem_filter.mpr ⟨hseed hy, Reach.seed hy⟩
        · intro y hy z hz
          rcases Finset.mem_filter.mp hy with ⟨hyR, hyr⟩
          exact Finset.mem_filter.mpr ⟨hcl _ hyR hz, Reach.step hyr hz⟩
      rcases Finset.mem_filter.mp (hsub hx) with ⟨-, hr⟩
      exact hnr hr
    · intro hx
      exact reach_subset_closed hseed hcl x hx
  · intro h
    refine ⟨?_, ?_, ?_⟩
    · intro x hx
      exact (h x).mpr (Reach.seed hx)
    · intro i hi j hj
      exact (h j).mpr (Reach.step ((h i).mp hi) hj)
    · intro S hs hcl x hx
      exact reach_subset_closed hs hcl x ((h x).mp hx)

theorem isReachClosure_unique {g : Graph} {seeds R R' : Finset NodeId}
    (h : IsReachClosure g seeds R) (h' : IsReachClosure g seeds R') : R = R' := by
  ext x
  rw [isReachClosure_iff_mem.mp h x, isReachClosure_iff_mem.mp h' x]

theorem dinv_init (g : Graph) (seeds : Finset NodeId) : DInv g seeds (seeds, ∅) := by
  refine ⟨?_, ?_, ?_⟩
  · intro x hx
    simp only [Finset.union_empty] at hx
    exact Reach.seed hx
  · intro x hx
    simp only [Finset.union_empty]
    exact hx
  · intro x hx
    simp at hx

theorem dinv_step {g : Graph} {seeds : Finset NodeId} {p q : Finset NodeId × Finset NodeId}
    (hstep : DStep g p q) (hinv : DInv g seeds p) : DInv g seeds q := by
  obtain ⟨n, hn, rfl⟩ := hstep
  obtain ⟨hreach, hseeds, hcl⟩ := hinv
  have hnr : Reach g seeds n := hreach n (Finset.mem_union_left _ hn)
  have hsub : (p.1.erase n ∪ (neighbors g n \ p.2)) ∪ insert n p.2 =
      (p.1 ∪ p.2) ∪ neighbors g n := by
    ext x
    simp only [Finset.mem_union, Finset.mem_erase, Finset.mem_sdiff, Finset.mem_insert]
    constructor
    · rintro ((⟨-, h⟩ | ⟨h, -⟩) | (rfl | h)) <;> tauto
    · rintro ((h | h) | h)
      · by_cases hxn : x = n <;> tauto
      · tauto
      · by_cases hxp : x ∈ p.2 <;> tauto
  refine ⟨?_, ?_, ?_⟩
  · intro x hx
    rw [hsub] at hx
    rcases Finset.mem_union.mp hx with h | h
    · exact hreach x h
    · exact Reach.step hnr h
  · intro x hx
    rw [hsub]
    exact Finset.mem_union_left _ (hseeds hx)
  · intro x hx
    rw [hsub]
    rcases Finset.mem_insert.mp hx with rfl | hx
    · intro j hj
      exact Finset.mem_union_right _ hj
    · intro j hj
      exact Finset.mem_union_left _ (hcl x hx hj)

theorem dinv_rtg {g : Graph} {seeds : Finset NodeId} {p q : Finset NodeId × Finset NodeId}
    (h : Relation.ReflTransGen (DStep g) p q) (hinv : DInv g seeds p) : DInv g seeds q := by
  induction h with
  | refl => exact hinv
  | tail _ hstep ih => exact dinv_step hstep ih

/-- At a terminal worklist state the discovered set is exactly the reachable
set — whatever order the pops happened in. -/
theorem dinv_terminal {g : Graph} {seeds d : Finset NodeId}
    (hinv : DInv g seeds (∅, d)) : ∀ x, x ∈ d ↔ Reach g seeds x := by
  obtain ⟨hreach, hseeds, hcl⟩ := hinv
  simp only [Finset.empty_union] at hreach hseeds hcl
  intro x
  constructor
  · exact hreach x
  · exact reach_subset_closed hseeds hcl x

theorem terminal_isReachClosure {g : Graph} {seeds d : Finset NodeId}
    (h : Relation.ReflTransGen (DStep g) (seeds, ∅) (∅, d)) :
    IsReachClosure g seeds d :=
  isReachClosure_iff_mem.mpr (dinv_terminal (dinv_rtg h (dinv_init g seeds)))

theorem discoverLoop_rtg {g : Graph} {d' : Finset NodeId} :
    ∀ {fuel : Nat} {u d : Finset NodeId}, discoverLoop g fuel u d = .ok d' →
      Relation.ReflTransGen (DStep g) (u, d) (∅, d') := by
  intro fuel
  induction fuel with
  | zero => intro u d h; simp [discoverLoop] at h
  | succ fuel ih =>
    intro u d h
    rw [discoverLoop] at h
    split at h
    · rename_i hne
      refine Relation.ReflTransGen.head ?_ (ih h)
      exact ⟨u.min' hne, u.min'_mem hne, rfl⟩
    · rename_i hne
      rcases Except.ok.inj h with rfl
      have : u = ∅ := Finset.not_nonempty_iff_eq_empty.mp hne
      rw [this]

theorem wfB_neighbors {g : Graph} (hwf : wfB g = true) (i : NodeId) :
    neighbors g i ⊆ Finset.range g.length := by
  intro j hj
  unfold neighbors at hj
  split at hj
  · rename_i n hn
    have hmem : n ∈ g := List.getElem?_mem hn
    have := (List.all_eq_true.mp hwf) n hmem
    have hj' := List.mem_toFinset.mp hj
    have := (List.all_eq_true.mp this) j hj'
    simpa using this
  · simp at hj

theorem discoverLoop_terminates {g : Graph} (hwf : wfB g = true) :
    ∀ (fuel : Nat) (u d : Finset NodeId),
      u ⊆ Finset.range g.length →
      (∀ x ∈ d, neighbors g x ⊆ d ∪ u) →
      ((Finset.range g.length \ d).card * (g.length + 1) + u.card) < fuel →
      ∃ d', discoverLoop g fuel u d = .ok d' := by
  intro fuel
  induction fuel with
  | zero => intro u d _ _ hm; omega
  | succ fuel ih =>
    intro u d hu hcl hm
    rw [discoverLoop]
    split
    · rename_i hne
      set n := u.min' hne with hn
      have hnu : n ∈ u := u.min'_mem hne
      have hnr : n ∈ Finset.range g.length := hu hnu
      -- invariants for the next state
      have hu' : (u.erase n) ∪ (neighbors g n \ d) ⊆ Finset.range g.length := by
        intro x hx
        rcases Finset.mem_union.mp hx with hx | hx
        · exact hu (Finset.mem_of_mem_erase hx)
        · exact wfB_neighbors hwf n (Finset.mem_sdiff.mp hx).1
      have hcl' : ∀ x ∈ insert n d,
          neighbors g x ⊆ insert n d ∪ (u.erase n ∪ (neighbors g n \ d)) := by
        intro x hx j hj
        rcases Finset.mem_insert.mp hx with rfl | hx
        · by_cases hjd : j ∈ d
          · exact Finset.mem_union_left _ (Finset.mem_insert_of_mem hjd)
          · exact Finset.mem_union_right _
              (Finset.mem_union_right _ (Finset.mem_sdiff.mpr ⟨hj, hjd⟩))
        · have := hcl x hx hj
          rcases Finset.mem_union.mp this with h | h
          · exact Finset.mem_union_left _ (Finset.mem_insert_of_mem h)
          · by_cases hjn : j = n
            · exact Finset.mem_union_left _ (by simp [hjn])
            · exact Finset.mem_union_right _
                (Finset.mem_union_left _ (Finset.mem_erase.mpr ⟨hjn, h⟩))
      -- the measure decreases
      have hucard : ∀ v : Finset NodeId, v ⊆ Finset.range g.length → v.card ≤ g.length := by
        intro v hv
        simpa using Finset.card_le_card hv
      have hmeas : ((Finset.range g.length \ insert n d).card * (g.length + 1) +
          ((u.erase n) ∪ (neighbors g n \ d)).card) <
          ((Finset.range g.length \ d).card * (g.length + 1) + u.card) := by
        by_cases hnd : n ∈ d
        · -- n already discovered: untreated strictly shrinks
          have hdeq : Finset.range g.length \ insert n d = Finset.range g.length \ d := by
            ext x
            simp only [Finset.mem_sdiff, Finset.mem_insert]
            constructor
            · rintro ⟨h1, h2⟩; exact ⟨h1, fun h => h2 (Or.inr h)⟩
            · rintro ⟨h1, h2⟩
              refine ⟨h1, ?_⟩
              rintro (rfl | h)
              · exact h2 hnd
              · exact h2 h
          have husub : (u.erase n) ∪ (neighbors g n \ d) ⊆ u.erase n := by
            intro x hx
            rcases Finset.mem_union.mp hx with hx | hx
            · exact hx
            · rcases Finset.mem_sdiff.mp hx with ⟨hx1, hx2⟩
              have := hcl n hnd hx1
              rcases Finset.mem_union.mp this with h | h
              · exact absurd h hx2
              · refine Finset.mem_erase.mpr ⟨?_, h⟩
                rintro rfl
                exact hx2 hnd
          have h1 : ((u.erase n) ∪ (neighbors g n \ d)).card ≤ (u.erase n).card :=
            Finset.card_le_card husub
          have h2 : (u.erase n).card < u.card := Finset.card_erase_lt_of_mem hnu
          rw [hdeq]
          omega
        · -- n newly discovered: the sdiff term strictly shrinks
          have hdlt : (Finset.range g.length \ insert n d).card <
              (Finset.range g.length \ d).card := by
            apply Finset.card_lt_card
            constructor
            · intro x hx
              rcases Finset.mem_sdiff.mp hx with ⟨h1, h2⟩
              exact Finset.mem_sdiff.mpr ⟨h1, fun h => h2 (Finset.mem_insert_of_mem h)⟩
            · intro hsub
              have : n ∈ Finset.range g.length \ d := Finset.mem_sdiff.mpr ⟨hnr, hnd⟩
              have := hsub this
              rcases Finset.mem_sdiff.mp this with ⟨-, h2⟩
              exact h2 (Finset.mem_insert_self n d)
          have h1 : ((u.erase n) ∪ (neighbors g n \ d)).card ≤ g.length := hucard _ hu'
          have h2 : (Finset.range g.length \ insert n d).card + 1 ≤
              (Finset.range g.length \ d).card := hdlt
          nlinarith [hdlt, h1, h2]
      exact ih _ _ hu' hcl' (by omega)
    · exact ⟨d, rfl⟩

theorem discover_spec {g : Graph} {seeds : Finset NodeId}
    (hwf : wfB g = true) (hseeds : seeds ⊆ Finset.range g.length) :
    ∃ R, IsReachClosure g seeds R ∧
      discover g seeds =
        (if ∀ i ∈ R, fcAt g i = true then .ok R else .error .incompleteGraph) := by
  have hterm := discoverLoop_terminates hwf (discoverFuel g seeds) seeds ∅
    hseeds (by intro x hx; simp at hx)
    (by
      unfold discoverFuel
      have h1 : (Finset.range g.length \ ∅).card = g.length := by simp
      rw [h1]
      have h2 : (∅ : Finset NodeId).card = 0 := rfl
      omega)
  obtain ⟨d, hd⟩ := hterm
  refine ⟨d, terminal_isReachClosure (discoverLoop_rtg hd), ?_⟩
  unfold discover
  rw [hd]

/-! ## Basic lemmas about the heap operations -/

theorem updateNode_getElem (g : Graph) (i : NodeId) (f : NodeData → NodeData)
    (k : NodeId) : (updateNode g i f)[k]? = if k = i then (g[i]?).map f else g[k]? := by
  unfold updateNode
  cases hg : g[i]? with
  | none =>
    by_cases hk : k = i
    · subst hk; simp [hg]
    · simp [hk]
  | some n =>
    have hlt : i < g.length := by
      cases Nat.lt_or_ge i g.length with
      | inl h => exact h
      | inr h => rw [List.getElem?_eq_none h] at hg; exact Option.noConfusion hg
    by_cases hk : k = i
    · subst hk
      rw [if_pos rfl]
      show (g.set k (f n))[k]? = Option.map f (some n)
      rw [List.getElem?_set_self hlt]
      rfl
    · show (g.set i (f n))[k]? = if k = i then Option.map f (some n) else g[k]?
      rw [if_neg hk, List.getElem?_set_ne (fun h => hk h.symm)]

theorem pushOut_getElem (g : Graph) (i j k : NodeId) :
    (pushOut g i j)[k]? =
      if k = i then (g[i]?).map (fun n => { n with output_nodes := n.output_nodes ++ [j] })
      else g[k]? :=
  updateNode_getElem g i _ k

theorem pushIn_getElem (g : Graph) (i j k : NodeId) :
    (pushIn g i j)[k]? =
      if k = i then (g[i]?).map (fun n => { n with input_nodes := n.input_nodes ++ [j] })
      else g[k]? :=
  updateNode_getElem g i _ k

theorem updateNode_length (g : Graph) (i : NodeId) (f : NodeData → NodeData) :
    (updateNode g i f).length = g.length := by
  unfold updateNode
  cases g[i]? <;> simp

theorem pushOut_length (g : Graph) (i j : NodeId) : (pushOut g i j).length = g.length :=
  updateNode_length g i _

theorem pushIn_length (g : Graph) (i j : NodeId) : (pushIn g i j).length = g.length :=
  updateNode_length g i _

theorem getElem?_append_some {g : Graph} {i : NodeId} {n : NodeData}
    (l : Graph) (h : g[i]? = some n) : (g ++ l)[i]? = some n := by
  have hlt : i < g.length := by
    cases Nat.lt_or_ge i g.length with
    | inl h' => exact h'
    | inr h' => rw [List.getElem?_eq_none h'] at h; exact Option.noConfusion h
  rw [List.getElem?_append_left hlt, h]

theorem getElem?_append_new (g : Graph) (n : NodeData) :
    (g ++ [n])[g.length]? = some n := by
  rw [List.getElem?_append_right (le_refl _)]
  simp

theorem shapeAt_pushOut (g : Graph) (a b k : NodeId) :
    ((pushOut g a b)[k]?).map shapeOf = (g[k]?).map shapeOf := by
  rw [pushOut_getElem]
  by_cases hk : k = a
  · subst hk
    rw [if_pos rfl]
    cases g[k]? <;> simp [shapeOf]
  · rw [if_neg hk]

theorem shapeAt_pushIn (g : Graph) (a b k : NodeId) :
    ((pushIn g a b)[k]?).map shapeOf = (g[k]?).map shapeOf := by
  rw [pushIn_getElem]
  by_cases hk : k = a
  · subst hk
    rw [if_pos rfl]
    cases g[k]? <;> simp [shapeOf]
  · rw [if_neg hk]

theorem ww_form_edge_ok {g : Graph} {i j : NodeId} {s t : NodeData}
    (hi : g[i]? = some s) (hj : g[j]? = some t)
    (hw : 0 < (s.outputs.toFinset ∩ t.inputs.toFinset).card) :
    WW.form_edge g i j = .ok (pushIn (pushOut g i j) j i) := by
  simp only [WW.form_edge, hi, hj]
  rw [if_pos hw]

theorem ww_form_edge_ok_inv {g g' : Graph} {i j : NodeId}
    (h : WW.form_edge g i j = .ok g') :
    ∃ s t, g[i]? = some s ∧ g[j]? = some t ∧
      0 < (s.outputs.toFinset ∩ t.inputs.toFinset).card ∧
      g' = pushIn (pushOut g i j) j i := by
  cases hi : g[i]? with
  | none =>
    exfalso
    cases hj : g[j]? <;> simp [WW.form_edge, hi, hj] at h
  | some s =>
    cases hj : g[j]? with
    | none =>
      exfalso
      simp [WW.form_edge, hi, hj] at h
    | some t =>
      simp only [WW.form_edge, hi, hj] at h
      split_ifs at h with hw
      all_goals first
        | exact Except.noConfusion h
        | exact ⟨s, t, rfl, rfl, hw, (Except.ok.inj h).symm⟩

theorem ww_form_edge_shape {g g' : Graph} {i j : NodeId}
    (h : WW.form_edge g i j = .ok g') :
    g'.length = g.length ∧ ∀ k : NodeId, (g'[k]?).map shapeOf = (g[k]?).map shapeOf := by
  obtain ⟨s, t, -, -, -, rfl⟩ := ww_form_edge_ok_inv h
  constructor
  · rw [pushIn_length, pushOut_length]
  · intro k
    rw [shapeAt_pushIn, shapeAt_pushOut]

/-- Workhorse for symbolic runs: an edge between two live nodes with a
shared word always succeeds and only mutates neighbor lists. -/
theorem ww_form_edge_run {g : Graph} {i j : NodeId} {s t : NodeData}
    (hi : (g[i]?).map shapeOf = some (shapeOf s))
    (hj : (g[j]?).map shapeOf = some (shapeOf t))
    (hw : 0 < (s.outputs.toFinset ∩ t.inputs.toFinset).card) :
    ∃ g', WW.form_edge g i j = .ok g' ∧ g'.length = g.length ∧
      ∀ k : NodeId, (g'[k]?).map shapeOf = (g[k]?).map shapeOf := by
  cases hgi : g[i]? with
  | none => rw [hgi] at hi; exact Option.noConfusion hi
  | some s' =>
    cases hgj : g[j]? with
    | none => rw [hgj] at hj; exact Option.noConfusion hj
    | some t' =>
      rw [hgi] at hi
      rw [hgj] at hj
      have hs : shapeOf s' = shapeOf s := Option.some.inj hi
      have ht : shapeOf t' = shapeOf t := Option.some.inj hj
      have hs2 : s'.outputs = s.outputs := congrArg (fun p => p.2.2) hs
      have ht2 : t'.inputs = t.inputs := congrArg (fun p => p.2.1) ht
      have hok := ww_form_edge_ok hgi hgj (by rw [hs2, ht2]; exact hw)
      refine ⟨_, hok, ?_, ?_⟩
      · rw [pushIn_length, pushOut_length]
      · intro k
        rw [shapeAt_pushIn, shapeAt_pushOut]

theorem shapeAt_append {g : Graph} {k : NodeId} {x : Kind × List Word × List Word}
    (l : Graph) (h : (g[k]?).map shapeOf = some x) :
    ((g ++ l)[k]?).map shapeOf = some x := by
  cases hk : g[k]? with
  | none => rw [hk] at h; exact Option.noConfusion h
  | some n =>
    rw [getElem?_append_some l hk]
    rw [hk] at h
    exact h

theorem nodeWord_of_shape {a b : NodeData} (h : shapeOf a = shapeOf b) :
    nodeWord a = nodeWord b := by
  have hk : a.kind = b.kind := congrArg (fun p => p.1) h
  have hi : a.inputs = b.inputs := congrArg (fun p => p.2.1) h
  have ho : a.outputs = b.outputs := congrArg (fun p => p.2.2) h
  simp only [nodeWord, hk, hi, ho]

theorem getElem?_append_one_inv {g : Graph} {x : NodeData} {id : NodeId} {n : NodeData}
    (h : (g ++ [x])[id]? = some n) :
    g[id]? = some n ∨ (id = g.length ∧ n = x) := by
  by_cases hid : id < g.length
  · left
    rw [List.getElem?_append_left hid] at h
    exact h
  · right
    have hlen : id < g.length + 1 := by
      cases Nat.lt_or_ge id (g ++ [x]).length with
      | inl h' => simpa using h'
      | inr h' => rw [List.getElem?_eq_none h'] at h; exact Option.noConfusion h
    have hide : id = g.length :=
      Nat.le_antisymm (Nat.lt_succ_iff.mp hlen) (Nat.le_of_not_lt hid)
    subst hide
    rw [getElem?_append_new] at h
    exact ⟨rfl, (Option.some.inj h).symm⟩

theorem invGood_shape {g g' : Graph} {invMap : List (Word × NodeId)}
    (hsh : ∀ k : NodeId, (g'[k]?).map shapeOf = (g[k]?).map shapeOf)
    (h : invGood g invMap) : invGood g' invMap := by
  constructor
  · intro w id hl
    obtain ⟨n, hn, hkind, hin, hout⟩ := h.1 w id hl
    cases hg' : g'[id]? with
    | none =>
      exfalso
      have := hsh id
      rw [hg', hn] at this
      exact Option.noConfusion this
    | some n' =>
      have heq : shapeOf n' = shapeOf n := by
        have := hsh id
        rw [hg', hn] at this
        exact Option.some.inj this
      exact ⟨n', rfl, (congrArg (fun p => p.1) heq).trans hkind,
        (congrArg (fun p => p.2.1) heq).trans hin,
        (congrArg (fun p => p.2.2) heq).trans hout⟩
  · intro id n hn hkind
    have := hsh id
    rw [hn] at this
    cases hg : g[id]? with
    | none => rw [hg] at this; exact Option.noConfusion this
    | some m =>
      rw [hg] at this
      have heq : shapeOf n = shapeOf m := Option.some.inj this
      rw [nodeWord_of_shape heq]
      exact h.2 id m hg ((congrArg (fun p => p.1) heq).symm.trans hkind)

theorem machGood_shape {g g' : Graph} {machMap : List ((Word × Word) × NodeId)}
    (hsh : ∀ k : NodeId, (g'[k]?).map shapeOf = (g[k]?).map shapeOf)
    (h : machGood g machMap) : machGood g' machMap := by
  constructor
  · intro p id hl
    obtain ⟨n, hn, hkind, hin⟩ := h.1 p id hl
    cases hg' : g'[id]? with
    | none =>
      exfalso
      have := hsh id
      rw [hg', hn] at this
      exact Option.noConfusion this
    | some n' =>
      have heq : shapeOf n' = shapeOf n := by
        have := hsh id
        rw [hg', hn] at this
        exact Option.some.inj this
      exact ⟨n', rfl, (congrArg (fun p => p.1) heq).trans hkind,
        (congrArg (fun p => p.2.1) heq).trans hin⟩
  · intro id n hn hkind
    have := hsh id
    rw [hn] at this
    cases hg : g[id]? with
    | none => rw [hg] at this; exact Option.noConfusion this
    | some m =>
      rw [hg] at this
      have heq : shapeOf n = shapeOf m := Option.some.inj this
      obtain ⟨l, r, hin, hl⟩ :=
        h.2 id m hg ((congrArg (fun p => p.1) heq).symm.trans hkind)
      exact ⟨l, r, (congrArg (fun p => p.2.1) heq).trans hin, hl⟩

theorem invGood_append_other {g : Graph} {invMap : List (Word × NodeId)}
    {x : NodeData} (hx : x.kind ≠ .inventory) (h : invGood g invMap) :
    invGood (g ++ [x]) invMap := by
  constructor
  · intro w id hl
    obtain ⟨n, hn, rest⟩ := h.1 w id hl
    exact ⟨n, getElem?_append_some [x] hn, rest⟩
  · intro id n hn hkind
    rcases getElem?_append_one_inv hn with hold | ⟨-, rfl⟩
    · exact h.2 id n hold hkind
    · exact absurd hkind hx

theorem machGood_append_other {g : Graph} {machMap : List ((Word × Word) × NodeId)}
    {x : NodeData} (hx : x.kind ≠ .machine) (h : machGood g machMap) :
    machGood (g ++ [x]) machMap := by
  constructor
  · intro p id hl
    obtain ⟨n, hn, rest⟩ := h.1 p id hl
    exact ⟨n, getElem?_append_some [x] hn, rest⟩
  · intro id n hn hkind
    rcases getElem?_append_one_inv hn with hold | ⟨-, rfl⟩
    · exact h.2 id n hold hkind
    · exact absurd hkind hx

theorem invGood_append_new {g : Graph} {invMap : List (Word × NodeId)} {w : Word}
    (hnone : alookup invMap w = none) (h : invGood g invMap) :
    invGood (g ++ [mkInventory w]) ((w, g.length) :: invMap) := by
  constructor
  · intro w' id hl
    rw [show alookup ((w, g.length) :: invMap) w' =
      (if w = w' then some g.length else alookup invMap w') from rfl] at hl
    split_ifs at hl with hww
    · rcases Option.some.inj hl with rfl
      subst hww
      exact ⟨mkInventory w, getElem?_append_new g _, rfl, rfl, rfl⟩
    · obtain ⟨n, hn, rest⟩ := h.1 w' id hl
      exact ⟨n, getElem?_append_some [mkInventory w] hn, rest⟩
  · intro id n hn hkind
    rcases getElem?_append_one_inv hn with hold | ⟨rfl, rfl⟩
    · have hl := h.2 id n hold hkind
      rw [show alookup ((w, g.length) :: invMap) (nodeWord n) =
        (if w = nodeWord n then some g.length else alookup invMap (nodeWord n)) from rfl]
      split_ifs with hww
      · exfalso
        rw [← hww] at hl
        rw [hnone] at hl
        exact Option.noConfusion hl
      · exact hl
    · rw [show nodeWord (mkInventory w) = w from rfl]
      rw [show alookup ((w, g.length) :: invMap) w =
        (if w = w then some g.length else alookup invMap w) from rfl]
      rw [if_pos rfl]

theorem machGood_append_new {g : Graph} {machMap : List ((Word × Word) × NodeId)}
    {l r : Word} (hnone : alookup machMap (l, r) = none) (h : machGood g machMap) :
    machGood (g ++ [mkMachine l r]) (((l, r), g.length) :: machMap) := by
  constructor
  · intro p id hl
    rw [show alookup (((l, r), g.length) :: machMap) p =
      (if (l, r) = p then some g.length else alookup machMap p) from rfl] at hl
    split_ifs at hl with hpp
    · rcases Option.some.inj hl with rfl
      subst hpp
      exact ⟨mkMachine l r, getElem?_append_new g _, rfl, rfl⟩
    · obtain ⟨n, hn, rest⟩ := h.1 p id hl
      exact ⟨n, getElem?_append_some [mkMachine l r] hn, rest⟩
  · intro id n hn hkind
    rcases getElem?_append_one_inv hn with hold | ⟨rfl, rfl⟩
    · obtain ⟨l', r', hin, hl⟩ := h.2 id n hold hkind
      refine ⟨l', r', hin, ?_⟩
      rw [show alookup (((l, r), g.length) :: machMap) (l', r') =
        (if (l, r) = (l', r') then some g.length else alookup machMap (l', r')) from rfl]
      split_ifs with hpp
      · exfalso
        rw [← hpp] at hl
        rw [hnone] at hl
        exact Option.noConfusion hl
      · exact hl
    · refine ⟨l, r, rfl, ?_⟩
      rw [show alookup (((l, r), g.length) :: machMap) (l, r) =
        (if (l, r) = (l, r) then some g.length else alookup machMap (l, r)) from rfl]
      rw [if_pos rfl]

theorem bioGetMachine_inv {st : BioState} {wl wr : Word} (h : BioInv st) :
    BioInv (bioGetMachine st wl wr).1 := by
  unfold bioGetMachine
  cases hm : alookup st.machMap (wl, wr) with
  | some m => exact h
  | none =>
    exact ⟨invGood_append_other (fun hx => Kind.noConfusion hx) h.1,
      machGood_append_new hm h.2⟩

theorem bioGetInventory_inv {st : BioState} {w : Word} (h : BioInv st) :
    BioInv (bioGetInventory st w).1 := by
  unfold bioGetInventory
  cases hm : alookup st.invMap w with
  | some l => exact h
  | none =>
    exact ⟨invGood_append_new hm h.1,
      machGood_append_other (fun hx => Kind.noConfusion hx) h.2⟩

theorem bioSplits_inv : ∀ (ps : List Nat) (invId : NodeId) (w : Word)
    (st st' : BioState), bioSplits invId w ps st = .ok st' → BioInv st → BioInv st' := by
  intro ps
  induction ps with
  | nil =>
    intro invId w st st' h hinv
    rcases Except.ok.inj h with rfl
    exact hinv
  | cons i is ih =>
    intro invId w st st' h hinv
    simp only [bioSplits] at h
    have hinv1 : BioInv (bioGetMachine st (WW.split_word w i).1 (WW.split_word w i).2).1 :=
      bioGetMachine_inv hinv
    split at h
    · exact Except.noConfusion h
    · rename_i g2 he1
      have hsh1 := (ww_form_edge_shape he1).2
      have hinvA : BioInv
          { (bioGetMachine st (WW.split_word w i).1 (WW.split_word w i).2).1 with g := g2 } :=
        ⟨invGood_shape hsh1 hinv1.1, machGood_shape hsh1 hinv1.2⟩
      have hinvB := @bioGetInventory_inv _ (WW.split_word w i).1 hinvA
      split at h
      · exact Except.noConfusion h
      · rename_i g3 he2
        have hsh2 := (ww_form_edge_shape he2).2
        have hinvC : BioInv
            { (bioGetInventory
                { (bioGetMachine st (WW.split_word w i).1 (WW.split_word w i).2).1 with
                  g := g2 } (WW.split_word w i).1).1 with g := g3 } :=
          ⟨invGood_shape hsh2 hinvB.1, machGood_shape hsh2 hinvB.2⟩
        have hinvD := @bioGetInventory_inv _ (WW.split_word w i).2 hinvC
        split at h
        · exact Except.noConfusion h
        · rename_i g4 he3
          have hsh3 := (ww_form_edge_shape he3).2
          exact ih invId w _ st' h
            ⟨invGood_shape hsh3 hinvD.1, machGood_shape hsh3 hinvD.2⟩

theorem bioStep_inv {sources : List (Word × NodeId)} {st st' : BioState}
    {invId : NodeId} (h : bioStep sources st invId = .ok st') (hinv : BioInv st) :
    BioInv st' := by
  simp only [bioStep] at h
  split at h
  · rename_i src hsrc
    split at h
    · exact Except.noConfusion h
    · rename_i g' he
      rcases Except.ok.inj h with rfl
      have hsh := (ww_form_edge_shape he).2
      exact ⟨invGood_shape hsh hinv.1, machGood_shape hsh hinv.2⟩
  · exact bioSplits_inv _ _ _ _ _ h hinv

theorem bioRun_inv {sources : List (Word × NodeId)} :
    ∀ (fuel : Nat) (st st' : BioState), bioRun sources fuel st = .ok st' →
      BioInv st → BioInv st' := by
  intro fuel
  induction fuel with
  | zero => intro st st' h _; exact Except.noConfusion h
  | succ fuel ih =>
    intro st st' h hinv
    rw [bioRun] at h
    split at h
    · rcases Except.ok.inj h with rfl
      exact hinv
    · rename_i invId rest hq
      split at h
      · exact Except.noConfusion h
      · rename_i st1 hstep
        exact ih st1 st' h (bioStep_inv hstep ⟨hinv.1, hinv.2⟩)

theorem bioSinkLoop_inv : ∀ (sinks : List (Word × NodeId)) (st st' : BioState),
    bioSinkLoop sinks st = .ok st' → BioInv st →
    (∀ p ∈ sinks, alookup st.invMap p.1 = none) →
    (sinks.map Prod.fst).Nodup → BioInv st' := by
  intro sinks
  induction sinks with
  | nil =>
    intro st st' h hinv _ _
    rcases Except.ok.inj h with rfl
    exact hinv
  | cons p rest ih =>
    intro st st' h hinv hnone hnodup
    simp only [bioSinkLoop, addNode] at h
    split at h
    · exact Except.noConfusion h
    · rename_i g2 he
      have hnew : invGood (st.g ++ [mkInventory p.1]) ((p.1, st.g.length) :: st.invMap) :=
        invGood_append_new (hnone p (List.mem_cons_self p rest)) hinv.1
      have hmach : machGood (st.g ++ [mkInventory p.1]) st.machMap :=
        machGood_append_other (fun hx => Kind.noConfusion hx) hinv.2
      have hsh := (ww_form_edge_shape he).2
      refine ih _ st' h ⟨invGood_shape hsh hnew, machGood_shape hsh hmach⟩ ?_ ?_
      · intro q hq
        rw [show alookup ((p.1, st.g.length) :: st.invMap) q.1 =
          (if p.1 = q.1 then some st.g.length else alookup st.invMap q.1) from rfl]
        split_ifs with hpq
        · exfalso
          have : q.1 ∈ rest.map Prod.fst := List.mem_map_of_mem Prod.fst hq
          rw [← hpq] at this
          exact (List.nodup_cons.mp hnodup).1 this
        · exact hnone q (List.mem_cons_of_mem p hq)
      · exact (List.nodup_cons.mp hnodup).2

theorem noInvMach_append {g : Graph} {x : NodeData}
    (hx : x.kind ≠ .inventory ∧ x.kind ≠ .machine) (h : noInvMach g) :
    noInvMach (g ++ [x]) := by
  intro id n hn
  rcases getElem?_append_one_inv hn with hold | ⟨-, rfl⟩
  · exact h id n hold
  · exact hx

theorem mkSinksGo_noInvMach : ∀ (ws : List Word) (g : Graph)
    (acc : List (Word × NodeId)), noInvMach g → noInvMach (mkSinksGo ws g acc).1 := by
  intro ws
  induction ws with
  | nil => intro g acc h; exact h
  | cons w rest ih =>
    intro g acc h
    simp only [mkSinksGo, addNode]
    exact ih _ _ (noInvMach_append
      ⟨fun hx => Kind.noConfusion hx, fun hx => Kind.noConfusion hx⟩ h)

theorem mkSourcesGo_noInvMach : ∀ (cs : List Char) (g : Graph)
    (acc : List (Word × NodeId)), noInvMach g → noInvMach (mkSourcesGo cs g acc).1 := by
  intro cs
  induction cs with
  | nil => intro g acc h; exact h
  | cons c rest ih =>
    intro g acc h
    simp only [mkSourcesGo, addNode]
    exact ih _ _ (noInvMach_append
      ⟨fun hx => Kind.noConfusion hx, fun hx => Kind.noConfusion hx⟩ h)

theorem mem_aupsert_keys {κ : Type} [DecidableEq κ] : ∀ (m : List (κ × NodeId))
    (k x : κ) (v : NodeId),
    x ∈ (aupsert m k v).map Prod.fst ↔ (x ∈ m.map Prod.fst ∨ x = k) := by
  intro m
  induction m with
  | nil => intro k x v; simp [aupsert]
  | cons p rest ih =>
    intro k x v
    simp only [aupsert]
    by_cases hpk : p.1 = k
    · rw [if_pos hpk]
      simp only [List.map_cons, List.mem_cons]
      rw [hpk]
      tauto
    · rw [if_neg hpk]
      simp only [List.map_cons, List.mem_cons]
      rw [ih k x v]
      tauto

theorem aupsert_keys_nodup {κ : Type} [DecidableEq κ] : ∀ (m : List (κ × NodeId))
    (k : κ) (v : NodeId),
    (m.map Prod.fst).Nodup → ((aupsert m k v).map Prod.fst).Nodup := by
  intro m
  induction m with
  | nil => intro k v _; simp [aupsert]
  | cons p rest ih =>
    intro k v h
    rcases List.nodup_cons.mp h with ⟨hp, hrest⟩
    simp only [aupsert]
    by_cases hpk : p.1 = k
    · rw [if_pos hpk]
      refine List.nodup_cons.mpr ⟨?_, hrest⟩
      rw [← hpk]
      exact hp
    · rw [if_neg hpk]
      refine List.nodup_cons.mpr ⟨?_, ih k v hrest⟩
      rw [mem_aupsert_keys]
      rintro (hmem | hmem)
      · exact hp hmem
      · exact hpk hmem

theorem mkSinksGo_keys_nodup : ∀ (ws : List Word) (g : Graph)
    (acc : List (Word × NodeId)), (acc.map Prod.fst).Nodup →
    ((mkSinksGo ws g acc).2.map Prod.fst).Nodup := by
  intro ws
  induction ws with
  | nil => intro g acc h; exact h
  | cons w rest ih =>
    intro g acc h
    simp only [mkSinksGo, addNode]
    exact ih _ _ (aupsert_keys_nodup acc w g.length h)

theorem wordAt_of_inventory {g : Graph} {i : NodeId} {n : NodeData} {w : Word}
    (hg : g[i]? = some n) (hkind : n.kind = .inventory) (hout : n.outputs = [w]) :
    wordAt g i = w := by
  unfold wordAt
  rw [hg]
  simp only [nodeWord, hkind, hout]
  rfl

theorem componentStep_regen {sources : List (Word × NodeId)} {g : Graph} {i : NodeId}
    {n : NodeData} (hb : alookup sources ['b'] = none)
    (hg : g[i]? = some n) (hkind : n.kind = .inventory)
    (hin : n.inputs = [['b']]) (hout : n.outputs = [['b']]) :
    ∃ g', componentStep sources g i = .ok (g', [g.length + 2, g.length + 1]) ∧
      (g'[g.length + 2]?).map shapeOf = some (shapeOf (mkInventory ['b'])) := by
  have hw : wordAt g i = ['b'] := wordAt_of_inventory hg hkind hout
  have hshape_n : (g[i]?).map shapeOf = some (shapeOf (mkInventory ['b'])) := by
    rw [hg]
    show some (shapeOf n) = some (shapeOf (mkInventory ['b']))
    unfold shapeOf mkInventory
    rw [hkind, hin, hout]
  -- edge Machine('', 'b') → Inventory('b')
  have hm1 : ((g ++ [mkMachine [] ['b']])[g.length]?).map shapeOf
      = some (shapeOf (mkMachine [] ['b'])) := by
    rw [getElem?_append_new]; rfl
  have hn1 : ((g ++ [mkMachine [] ['b']])[i]?).map shapeOf
      = some (shapeOf (mkInventory ['b'])) := shapeAt_append _ hshape_n
  obtain ⟨g1, he1, hlen1, hsh1⟩ := ww_form_edge_run hm1 hn1 (by decide)
  have hlen1' : g1.length = g.length + 1 := by rw [hlen1]; simp
  -- edge Inventory('') → Machine('', 'b')
  have hm2 : (g1[g.length]?).map shapeOf = some (shapeOf (mkMachine [] ['b'])) :=
    (hsh1 g.length).trans hm1
  have hl2 : ((g1 ++ [mkInventory []])[g1.length]?).map shapeOf
      = some (shapeOf (mkInventory [])) := by
    rw [getElem?_append_new]; rfl
  have hm2' : ((g1 ++ [mkInventory []])[g.length]?).map shapeOf
      = some (shapeOf (mkMachine [] ['b'])) := shapeAt_append _ hm2
  obtain ⟨g2, he2, hlen2, hsh2⟩ := ww_form_edge_run hl2 hm2' (by decide)
  have hlen2' : g2.length = g.length + 2 := by
    rw [hlen2]
    simp [hlen1']
  -- edge Inventory('b') → Machine('', 'b')
  have hm3 : (g2[g.length]?).map shapeOf = some (shapeOf (mkMachine [] ['b'])) :=
    (hsh2 g.length).trans hm2'
  have hr3 : ((g2 ++ [mkInventory ['b']])[g2.length]?).map shapeOf
      = some (shapeOf (mkInventory ['b'])) := by
    rw [getElem?_append_new]; rfl
  have hm3' : ((g2 ++ [mkInventory ['b']])[g.length]?).map shapeOf
      = some (shapeOf (mkMachine [] ['b'])) := shapeAt_append _ hm3
  obtain ⟨g3, he3, hlen3, hsh3⟩ := ww_form_edge_run hr3 hm3' (by decide)
  have key : componentStep sources g i =
      (match WW.form_edge (g ++ [mkMachine [] ['b']]) g.length i with
      | .error e => .error e
      | .ok ga =>
        match WW.form_edge (ga ++ [mkInventory []]) ga.length g.length with
        | .error e => .error e
        | .ok gb =>
          match WW.form_edge (gb ++ [mkInventory ['b']]) gb.length g.length with
          | .error e => .error e
          | .ok gc => .ok (gc, [gb.length, ga.length])) := by
    simp only [componentStep, hw, hb]
    rfl
  refine ⟨g3, ?_, ?_⟩
  · rw [key]
    simp only [he1, he2, he3]
    rw [hlen2', hlen1']
  · rw [← hlen2']
    exact (hsh3 g2.length).trans hr3

theorem componentRun_hang {sources : List (Word × NodeId)}
    (hb : alookup sources ['b'] = none) :
    ∀ (fuel : Nat) (g : Graph) (queue : List NodeId),
      wordLoopInv ['b'] g queue →
      componentRun sources fuel g queue = .error .outOfFuel := by
  intro fuel
  induction fuel with
  | zero => intro g queue _; rfl
  | succ fuel ih =>
    rintro g queue ⟨i, rest, n, rfl, hg, hkind, hin, hout⟩
    obtain ⟨g', hstep, hsh⟩ := componentStep_regen hb hg hkind hin hout
    have : componentRun sources (fuel + 1) g (i :: rest) =
        componentRun sources fuel g' ([g.length + 2, g.length + 1] ++ rest) := by
      simp only [componentRun, hstep]
    rw [this]
    apply ih
    cases hcase : g'[g.length + 2]? with
    | none => rw [hcase] at hsh; exact Option.noConfusion hsh
    | some m =>
      rw [hcase] at hsh
      have hm : shapeOf m = shapeOf (mkInventory ['b']) := Option.some.inj hsh
      exact ⟨g.length + 2, _, m, rfl, hcase,
        congrArg (fun p => p.1) hm,
        congrArg (fun p => p.2.1) hm,
        congrArg (fun p => p.2.2) hm⟩

theorem lateStep_regen {sources : List (Word × NodeId)} {st : LateState} {i : NodeId}
    {n : NodeData} (h0 : alookup sources [] = none)
    (hg : st.g[i]? = some n) (hkind : n.kind = .inventory)
    (hin : n.inputs = [[]]) (hout : n.outputs = [[]]) :
    ∃ g', lateStep [] sources st i =
        .ok { st with g := g',
                      queue := (st.g.length + 2) :: (st.g.length + 1) :: st.queue } ∧
      (g'[st.g.length + 2]?).map shapeOf = some (shapeOf (mkInventory [])) := by
  have hw : wordAt st.g i = [] := wordAt_of_inventory hg hkind hout
  have hshape_n : (st.g[i]?).map shapeOf = some (shapeOf (mkInventory [])) := by
    rw [hg]
    show some (shapeOf n) = some (shapeOf (mkInventory []))
    unfold shapeOf mkInventory
    rw [hkind, hin, hout]
  have hm1 : ((st.g ++ [mkMachine [] []])[st.g.length]?).map shapeOf
      = some (shapeOf (mkMachine [] [])) := by
    rw [getElem?_append_new]; rfl
  have hn1 : ((st.g ++ [mkMachine [] []])[i]?).map shapeOf
      = some (shapeOf (mkInventory [])) := shapeAt_append _ hshape_n
  obtain ⟨g1, he1, hlen1, hsh1⟩ := ww_form_edge_run hm1 hn1 (by decide)
  have hlen1' : g1.length = st.g.length + 1 := by rw [hlen1]; simp
  have hm2 : (g1[st.g.length]?).map shapeOf = some (shapeOf (mkMachine [] [])) :=
    (hsh1 st.g.length).trans hm1
  have hl2 : ((g1 ++ [mkInventory []])[g1.length]?).map shapeOf
      = some (shapeOf (mkInventory [])) := by
    rw [getElem?_append_new]; rfl
  have hm2' : ((g1 ++ [mkInventory []])[st.g.length]?).map shapeOf
      = some (shapeOf (mkMachine [] [])) := shapeAt_append _ hm2
  obtain ⟨g2, he2, hlen2, hsh2⟩ := ww_form_edge_run hl2 hm2' (by decide)
  have hlen2' : g2.length = st.g.length + 2 := by
    rw [hlen2]
    simp [hlen1']
  have hm3 : (g2[st.g.length]?).map shapeOf = some (shapeOf (mkMachine [] [])) :=
    (hsh2 st.g.length).trans hm2'
  have hr3 : ((g2 ++ [mkInventory []])[g2.length]?).map shapeOf
      = some (shapeOf (mkInventory [])) := by
    rw [getElem?_append_new]; rfl
  have hm3' : ((g2 ++ [mkInventory []])[st.g.length]?).map shapeOf
      = some (shapeOf (mkMachine [] [])) := shapeAt_append _ hm3
  obtain ⟨g3, he3, hlen3, hsh3⟩ := ww_form_edge_run hr3 hm3' (by decide)
  have key : lateStep [] sources st i =
      (match WW.form_edge (st.g ++ [mkMachine [] []]) st.g.length i with
      | .error e => .error e
      | .ok ga =>
        match WW.form_edge (ga ++ [mkInventory []]) ga.length st.g.length with
        | .error e => .error e
        | .ok gb =>
          match WW.form_edge (gb ++ [mkInventory []]) gb.length st.g.length with
          | .error e => .error e
          | .ok gc =>
            .ok { st with g := gc, queue := gb.length :: ga.length :: st.queue }) := by
    simp only [lateStep, hw, h0, lateSynth]
    rfl
  refine ⟨g3, ?_, ?_⟩
  · rw [key]
    simp only [he1, he2, he3]
    rw [hlen2', hlen1']
  · rw [← hlen2']
    exact (hsh3 g2.length).trans hr3

theorem lateRun_hang {sources : List (Word × NodeId)}
    (h0 : alookup sources [] = none) :
    ∀ (fuel : Nat) (st : LateState), wordLoopInv [] st.g st.queue →
      lateRun [] sources fuel st = .error .outOfFuel := by
  intro fuel
  induction fuel with
  | zero => intro st _; rfl
  | succ fuel ih =>
    rintro st ⟨i, rest, n, hq, hg, hkind, hin, hout⟩
    obtain ⟨g', hstep, hsh⟩ :=
      @lateStep_regen sources { st with queue := rest } i n h0 hg hkind hin hout
    have hrun : lateRun [] sources (fuel + 1) st =
        lateRun [] sources fuel
          ⟨g', (st.g.length + 2) :: (st.g.length + 1) :: rest, st.stdMap⟩ := by
      simp only [lateRun, hq, hstep]
    rw [hrun]
    apply ih
    cases hcase : g'[st.g.length + 2]? with
    | none => rw [hcase] at hsh; exact Option.noConfusion hsh
    | some m =>
      rw [hcase] at hsh
      have hm : shapeOf m = shapeOf (mkInventory []) := Option.some.inj hsh
      exact ⟨st.g.length + 2, _, m, rfl, hcase,
        congrArg (fun p => p.1) hm,
        congrArg (fun p => p.2.1) hm,
        congrArg (fun p => p.2.2) hm⟩

/-! ## Claim C3: the `fully_connected` predicate -/

theorem coverage_card_zero (g : Graph) (n : NodeData) :
    (n.inputs.toFinset \ (n.input_nodes.map (wordAt g)).toFinset).card = 0 ↔
      ∀ w ∈ n.inputs, w ∈ n.input_nodes.map (wordAt g) := by
  rw [Finset.card_eq_zero, Finset.sdiff_eq_empty_iff_subset]
  constructor
  · intro h w hw
    exact List.mem_toFinset.mp (h (List.mem_toFinset.mpr hw))
  · intro h x hx
    exact List.mem_toFinset.mpr (h x (List.mem_toFinset.mp hx))

/-- C3.  `fully_connected` is true iff (a) there are at least as many
inbound neighbors as required input words, (b) the inbound neighbors' words
cover the input word set, and (c) there are at least as many outbound
neighbors as output words; no word-coverage condition constrains the
outbound side beyond the count — witness the final conjunct, where the sole
outbound neighbor is a sink for a different word. -/
theorem c3_fully_connected_iff :
    (∀ (g : Graph) (n : NodeData),
      fully_connected g n = true ↔
        (n.inputs.length ≤ n.input_nodes.length ∧
          (∀ w ∈ n.inputs, w ∈ n.input_nodes.map (wordAt g)) ∧
          n.outputs.length ≤ n.output_nodes.length)) ∧
    fully_connected [⟨.inventory, [['a']], [['a']], [1], [2]⟩, mkSource ['a'], mkSink ['b']]
      ⟨.inventory, [['a']], [['a']], [1], [2]⟩ = true := by
  constructor
  · intro g n
    unfold fully_connected
    split_ifs with h1 h2 h3
    · simp only [Bool.false_eq_true, false_iff]
      rintro ⟨ha, -, -⟩; omega
    · simp only [Bool.false_eq_true, false_iff]
      rintro ⟨-, hb, -⟩
      have := (coverage_card_zero g n).mpr hb
      omega
    · simp only [Bool.false_eq_true, false_iff]
      rintro ⟨-, -, hc⟩; omega
    · simp only [true_iff]
      refine ⟨by omega, ?_, by omega⟩
      exact (coverage_card_zero g n).mp (by omega)
  · rfl

/-! ## Claim C4: word splitting -/

/-- C4 counterexample.  The module-level `wordmill.split_word` — the one the
algorithms import — does not fail at `pos = 0` or `pos = len(word)`: it
returns the slices, with an empty half, instead of raising
`InvalidSplitPosition`. -/
theorem c4_ww_split_word_unchecked :
    WW.split_word ['a', 'b'] 0 = ([], ['a', 'b']) ∧
      WW.split_word ['a', 'b'] 2 = (['a', 'b'], []) := by
  exact ⟨rfl, rfl⟩

/-- C4 as amended.  `node_types.Node.split_word` behaves as the claim says:
for `1 ≤ pos ≤ len(w) - 1` it returns `(w[:pos], w[pos:])`, whose halves
concatenate back to `w`, and for `pos = 0`, `pos = len(w)` or any attempt on
a word of length ≤ 1 it fails with `InvalidSplitPosition`.  The module-level
`wordmill.split_word` used by the algorithms instead returns the raw slices
for every position, without any failure. -/
theorem c4_split_word_amended :
    ∀ (w : Word) (pos : Nat),
      (1 ≤ pos → pos ≤ w.length - 1 →
        NT.split_word w pos = .ok (w.take pos, w.drop pos) ∧
          w.take pos ++ w.drop pos = w) ∧
      (pos = 0 ∨ pos = w.length → NT.split_word w pos = .error .invalidSplitPosition) ∧
      (w.length ≤ 1 → NT.split_word w pos = .error .invalidSplitPosition) ∧
      WW.split_word w pos = (w.take pos, w.drop pos) := by
  intro w pos
  refine ⟨?_, ?_, ?_, rfl⟩
  · intro h1 h2
    unfold NT.split_word
    rw [if_pos ⟨h1, h2⟩]
    exact ⟨rfl, List.take_append_drop pos w⟩
  · rintro (rfl | rfl)
    · unfold NT.split_word
      rw [if_neg (by omega)]
    · unfold NT.split_word
      rw [if_neg (by omega)]
  · intro hlen
    unfold NT.split_word
    rw [if_neg (by omega)]

/-- C4 witness: the amended theorem at the repository's own test vector
`("Test", 2)` and at the failing positions `0` and `4`. -/
theorem c4_split_word_witness :
    NT.split_word ['T', 'e', 's', 't'] 2 = .ok (['T', 'e'], ['s', 't']) ∧
      NT.split_word ['T', 'e', 's', 't'] 0 = .error .invalidSplitPosition ∧
      NT.split_word ['T', 'e', 's', 't'] 4 = .error .invalidSplitPosition := by
  refine ⟨?_, ?_, ?_⟩
  · exact ((c4_split_word_amended ['T', 'e', 's', 't'] 2).1 (by omega) (by simp)).1
  · exact (c4_split_word_amended ['T', 'e', 's', 't'] 0).2.1 (Or.inl rfl)
  · exact (c4_split_word_amended ['T', 'e', 's', 't'] 4).2.1 (Or.inr (by simp))

theorem allowed_tables_symm : ∀ k k', NT.allowedOut k k' = NT.allowedIn k' k := by
  intro k k'
  cases k <;> cases k' <;> rfl

theorem form_outbound_ok_inv {g g1 : Graph} {i j : NodeId}
    (h : NT.form_outbound_edge g i j = .ok g1) :
    ∃ s t, g[i]? = some s ∧ g[j]? = some t ∧
      (s.outputs.toFinset ∩ t.inputs.toFinset).card ≠ 0 ∧
      NT.allowedOut s.kind t.kind = true ∧ g1 = pushOut g i j := by
  cases hi : g[i]? with
  | none =>
    exfalso
    cases hj : g[j]? <;> simp [NT.form_outbound_edge, hi, hj] at h
  | some s =>
    cases hj : g[j]? with
    | none =>
      exfalso
      simp [NT.form_outbound_edge, hi, hj] at h
    | some t =>
      simp only [NT.form_outbound_edge, hi, hj] at h
      split_ifs at h with hw hk
      all_goals first
        | exact Except.noConfusion h
        | exact ⟨s, t, rfl, rfl, hw, hk, (Except.ok.inj h).symm⟩

theorem form_inbound_ok {g : Graph} {i j : NodeId} {s t : NodeData}
    (hi : g[i]? = some s) (hj : g[j]? = some t)
    (hw : (t.outputs.toFinset ∩ s.inputs.toFinset).card ≠ 0)
    (hk : NT.allowedIn s.kind t.kind = true) :
    NT.form_inbound_edge g i j = .ok (pushIn g i j) := by
  simp only [NT.form_inbound_edge, hi, hj]
  rw [if_neg hw, if_neg (not_not_intro hk)]

/-- After a successful outbound call, the symmetric inbound call can never
fail: the word check is the same intersection and the permission tables
mirror each other.  So `form_edge` either errors with the graph untouched or
records the edge on both sides. -/
theorem nt_form_edge_cases (g : Graph) (i j : NodeId) :
    (∃ e, NT.form_edge g i j = (g, some e)) ∨
      NT.form_edge g i j = (pushIn (pushOut g i j) j i, none) := by
  cases hout : NT.form_outbound_edge g i j with
  | error e =>
    left
    exact ⟨e, by simp only [NT.form_edge, hout]⟩
  | ok g1 =>
    right
    obtain ⟨s, t, hi, hj, hw, hk, rfl⟩ := form_outbound_ok_inv hout
    have hin : NT.form_inbound_edge (pushOut g i j) j i =
        .ok (pushIn (pushOut g i j) j i) := by
      by_cases hji : j = i
      · subst hji
        have hst : s = t := by rw [hi] at hj; exact Option.some.inj hj
        subst hst
        have hj1 : (pushOut g j j)[j]? =
            some { s with output_nodes := s.output_nodes ++ [j] } := by
          rw [pushOut_getElem, if_pos rfl, hi]; rfl
        exact form_inbound_ok hj1 hj1 hw (by rw [← allowed_tables_symm]; exact hk)
      · have hj1 : (pushOut g i j)[j]? = some t := by
          rw [pushOut_getElem, if_neg hji, hj]
        have hi1 : (pushOut g i j)[i]? =
            some { s with output_nodes := s.output_nodes ++ [j] } := by
          rw [pushOut_getElem, if_pos rfl, hi]; rfl
        exact form_inbound_ok hj1 hi1 hw (by rw [← allowed_tables_symm]; exact hk)
    simp only [NT.form_edge, hout, hin]

/-- C10.  `node_types`' edge formation is all-or-nothing: if `form_edge`
reports an error the heap is unchanged (each side validates before mutating,
and the inbound side can never fail after the outbound side succeeded, since
the word check is the same intersection and the kind tables are symmetric);
if it succeeds, the producer gained exactly the consumer in its outbound
list, the consumer gained the producer in its inbound list, and every other
node is untouched. -/
theorem c10_form_edge_atomic :
    ∀ (g : Graph) (i j : NodeId),
      ((NT.form_edge g i j).2.isSome → (NT.form_edge g i j).1 = g) ∧
      ((NT.form_edge g i j).2 = none →
        ((NT.form_edge g i j).1)[i]?.map NodeData.output_nodes =
            (g[i]?).map (fun n => n.output_nodes ++ [j]) ∧
          ((NT.form_edge g i j).1)[j]?.map NodeData.input_nodes =
            (g[j]?).map (fun n => n.input_nodes ++ [i]) ∧
          ∀ k, k ≠ i → k ≠ j → ((NT.form_edge g i j).1)[k]? = g[k]?) := by
  intro g i j
  rcases nt_form_edge_cases g i j with ⟨e, h⟩ | h
  · constructor
    · intro _; rw [h]
    · intro hnone
      rw [h] at hnone
      simp at hnone
  · constructor
    · intro hsome
      rw [h] at hsome
      simp at hsome
    · intro _
      rw [h]
      refine ⟨?_, ?_, ?_⟩
      · by_cases hij : i = j
        · subst hij
          rw [pushIn_getElem, if_pos rfl, pushOut_getElem, if_pos rfl]
          cases hg : g[i]? <;> simp
        · rw [pushIn_getElem, if_neg hij, pushOut_getElem, if_pos rfl]
          cases hg : g[i]? <;> simp
      · by_cases hji : j = i
        · subst hji
          rw [pushIn_getElem, if_pos rfl, pushOut_getElem, if_pos rfl]
          cases hg : g[j]? <;> simp
        · rw [pushIn_getElem, if_pos rfl, pushOut_getElem, if_neg hji]
          cases hg : g[j]? <;> simp
      · intro k hki hkj
        rw [pushIn_getElem, if_neg hkj, pushOut_getElem, if_neg hki]

theorem nt_form_edge_product_mismatch {g : Graph} {i j : NodeId} {s t : NodeData}
    (hi : g[i]? = some s) (hj : g[j]? = some t)
    (hw : (s.outputs.toFinset ∩ t.inputs.toFinset).card = 0) :
    NT.form_edge g i j = (g, some .productMismatch) := by
  have hout : NT.form_outbound_edge g i j = .error .productMismatch := by
    simp only [NT.form_outbound_edge, hi, hj]
    rw [if_pos hw]
  simp only [NT.form_edge, hout]

theorem nt_form_edge_kind_violation {g : Graph} {i j : NodeId} {s t : NodeData}
    (hi : g[i]? = some s) (hj : g[j]? = some t)
    (hw : 0 < (s.outputs.toFinset ∩ t.inputs.toFinset).card)
    (hforb : NT.allowedOut s.kind t.kind = false) :
    NT.form_edge g i j = (g, some .kindViolation) := by
  have hout : NT.form_outbound_edge g i j = .error .kindViolation := by
    simp only [NT.form_outbound_edge, hi, hj]
    rw [if_neg (by omega), if_pos (by simp [hforb])]
  simp only [NT.form_edge, hout]

theorem allowedOut_true_iff : ∀ k k', NT.allowedOut k k' = true ↔
    ((k = .source ∧ k' = .inventory) ∨ (k = .machine ∧ k' = .inventory) ∨
      (k = .inventory ∧ (k' = .sink ∨ k' = .machine))) := by
  intro k k'
  cases k <;> cases k' <;> simp [NT.allowedOut]

/-- C2 counterexample.  An edge into a `Source` is forbidden by the
bipartite alternation, yet `node_types.form_edge` rejects it with the
no-common-product `ValueError` (`ProductMismatch`), not with the wrong-class
`ValueError` (`KindViolation`): the product check runs first, and a `Source`
has no inputs to share. -/
theorem c2_edge_into_source_mismatch :
    NT.form_edge [mkInventory ['a'], mkSource ['a']] 0 1 =
      ([mkInventory ['a'], mkSource ['a']], some RunError.productMismatch) ∧
    (NT.form_edge [mkInventory ['a'], mkSource ['a']] 0 1).2 ≠
      some RunError.kindViolation := by
  exact ⟨rfl, by decide⟩

/-- C2 as amended.  In the `node_types` protocol: a forbidden kind pairing
fails with `KindViolation` whenever the two nodes do share a common word;
an edge into a `Source` or out of a `Sink` instead always fails with
`ProductMismatch`, because the shared-product check precedes the kind check
and those nodes have no inputs (resp. outputs); a successful edge only ever
joins `Source→Inventory`, `Machine→Inventory`, `Inventory→Sink` or
`Inventory→Machine`.  The plain `form_edge` of `wordmill.py` enforces no
kind restriction at all — the final conjunct shows it happily links two
inventories. -/
theorem c2_kind_alternation_amended :
    (∀ (g : Graph) (i j : NodeId) (s t : NodeData), g[i]? = some s → g[j]? = some t →
        NT.allowedOut s.kind t.kind = false →
        0 < (s.outputs.toFinset ∩ t.inputs.toFinset).card →
        NT.form_edge g i j = (g, some .kindViolation)) ∧
    (∀ (g : Graph) (i j : NodeId) (s t : NodeData), g[i]? = some s → g[j]? = some t →
        wfShape s → wfShape t → (t.kind = .source ∨ s.kind = .sink) →
        NT.form_edge g i j = (g, some .productMismatch)) ∧
    (∀ (g : Graph) (i j : NodeId), (NT.form_edge g i j).2 = none →
        ∃ s t, g[i]? = some s ∧ g[j]? = some t ∧
          0 < (s.outputs.toFinset ∩ t.inputs.toFinset).card ∧
          ((s.kind = .source ∧ t.kind = .inventory) ∨
            (s.kind = .machine ∧ t.kind = .inventory) ∨
            (s.kind = .inventory ∧ (t.kind = .sink ∨ t.kind = .machine)))) ∧
    (WW.form_edge [mkInventory ['a'], mkInventory ['a']] 0 1).isOk = true := by
  refine ⟨?_, ?_, ?_, rfl⟩
  · intro g i j s t hi hj hforb hw
    exact nt_form_edge_kind_violation hi hj hw hforb
  · intro g i j s t hi hj hwfs hwft hor
    rcases hor with ht | hs
    · have htin : t.inputs = [] := by
        rcases hwft with ⟨-, h⟩ | ⟨hk, -⟩ | ⟨hk, -⟩ | ⟨hk, -⟩
        · exact h
        all_goals rw [ht] at hk; exact Kind.noConfusion hk
      exact nt_form_edge_product_mismatch hi hj (by rw [htin]; simp)
    · have hsout : s.outputs = [] := by
        rcases hwfs with ⟨hk, -⟩ | ⟨-, h⟩ | ⟨hk, -⟩ | ⟨hk, -⟩
        · rw [hs] at hk; exact Kind.noConfusion hk
        · exact h
        all_goals rw [hs] at hk; exact Kind.noConfusion hk
      exact nt_form_edge_product_mismatch hi hj (by rw [hsout]; simp)
  · intro g i j hnone
    cases hout : NT.form_outbound_edge g i j with
    | error e =>
      exfalso
      simp only [NT.form_edge, hout] at hnone
      exact Option.noConfusion hnone
    | ok g1 =>
      obtain ⟨s, t, hi, hj, hw, hk, -⟩ := form_outbound_ok_inv hout
      exact ⟨s, t, hi, hj, by omega, (allowedOut_true_iff s.kind t.kind).mp hk⟩

/-- C2 witness: the amended theorem applied to concrete nodes —
`Source('a') → Sink('a')` shares a word but fails with `KindViolation`;
`Inventory('a') → Source('a')` fails with `ProductMismatch`; the successful
`Inventory('a') → Sink('a')` is of an allowed kind pair. -/
theorem c2_kind_alternation_witness :
    NT.form_edge [mkSource ['a'], mkSink ['a']] 0 1 =
        ([mkSource ['a'], mkSink ['a']], some RunError.kindViolation) ∧
      NT.form_edge [mkSource ['a'], mkSource ['a']] 0 1 =
        ([mkSource ['a'], mkSource ['a']], some RunError.productMismatch) ∧
      ∃ s t, ([mkInventory ['a'], mkSink ['a']] : Graph)[0]? = some s ∧
        ([mkInventory ['a'], mkSink ['a']] : Graph)[1]? = some t ∧
        0 < (s.outputs.toFinset ∩ t.inputs.toFinset).card ∧
        ((s.kind = .source ∧ t.kind = .inventory) ∨
          (s.kind = .machine ∧ t.kind = .inventory) ∨
          (s.kind = .inventory ∧ (t.kind = .sink ∨ t.kind = .machine))) := by
  refine ⟨?_, ?_, ?_⟩
  · exact c2_kind_alternation_amended.1 _ 0 1 (mkSource ['a']) (mkSink ['a'])
      rfl rfl rfl (by decide)
  · exact c2_kind_alternation_amended.2.1 _ 0 1 (mkSource ['a']) (mkSource ['a'])
      rfl rfl (Or.inl ⟨rfl, rfl⟩) (Or.inl ⟨rfl, rfl⟩) (Or.inl rfl)
  · exact c2_kind_alternation_amended.2.2.1 [mkInventory ['a'], mkSink ['a']] 0 1 rfl

/-! ## Claims C5 and C9: the discovery procedure -/

/-- C5 counterexample.  The `ValueError` that `discover` raises on an
incomplete graph is one constant value: two graphs whose (distinct) sole
offending nodes are `Sink('a')` and `Sink('b')` produce the very same error,
so the error cannot reference any offending node. -/
theorem c5_error_references_no_node :
    discover [mkSink ['a']] {0} = .error RunError.incompleteGraph ∧
      discover [mkSink ['b']] {0} = .error RunError.incompleteGraph ∧
      [mkSink ['a']] ≠ ([mkSink ['b']] : Graph) := by
  exact ⟨rfl, rfl, by decide⟩

/-- C5 as amended.  `discover` first computes the complete closure `R` of
the seed set under the neighbor relation, and only then validates: if every
discovered node is fully connected it returns exactly `R`; otherwise it
raises the one constant `IncompleteGraph` error, whose fixed message
identifies no particular offending node. -/
theorem c5_discover_closure_then_validate :
    ∀ (g : Graph) (seeds : Finset NodeId), wfB g = true →
      seeds ⊆ Finset.range g.length →
      ∃ R, IsReachClosure g seeds R ∧
        discover g seeds =
          (if ∀ i ∈ R, fcAt g i = true then .ok R else .error .incompleteGraph) :=
  fun _ _ hwf hseeds => discover_spec hwf hseeds

/-- C5 witness: the amended theorem at the one-sink graph. -/
theorem c5_discover_witness :
    ∃ R, IsReachClosure [mkSink ['a']] {0} R ∧
      discover [mkSink ['a']] {0} =
        (if ∀ i ∈ R, fcAt [mkSink ['a']] i = true then .ok R
          else .error .incompleteGraph) :=
  c5_discover_closure_then_validate [mkSink ['a']] {0} (by decide) (by decide)

/-- C9.  The discovered set does not depend on the order in which the
worklist pops untreated nodes: any two terminated runs of the
nondeterministic worklist relation from the same seeds produce the same
discovered set (both equal the least closed superset of the seeds), and the
executable `discover` agrees with every such run. -/
theorem c9_discover_order_independent :
    (∀ (g : Graph) (seeds d₁ d₂ : Finset NodeId),
        Relation.ReflTransGen (DStep g) (seeds, ∅) (∅, d₁) →
        Relation.ReflTransGen (DStep g) (seeds, ∅) (∅, d₂) → d₁ = d₂) ∧
    (∀ (g : Graph) (seeds d : Finset NodeId), wfB g = true →
        seeds ⊆ Finset.range g.length →
        Relation.ReflTransGen (DStep g) (seeds, ∅) (∅, d) →
        discover g seeds =
          (if ∀ i ∈ d, fcAt g i = true then .ok d else .error .incompleteGraph)) := by
  constructor
  · intro g seeds d₁ d₂ h1 h2
    exact isReachClosure_unique (terminal_isReachClosure h1) (terminal_isReachClosure h2)
  · intro g seeds d hwf hseeds hrun
    obtain ⟨R, hR, heq⟩ := discover_spec hwf hseeds
    have hdR : d = R := isReachClosure_unique (terminal_isReachClosure hrun) hR
    rw [hdR]
    exact heq

/-- C9 witness: two concrete runs over a two-sink graph that pop the seeds
in opposite orders end with the same discovered set. -/
theorem c9_discover_order_independent_witness :
    ({0, 1} : Finset NodeId) = insert 0 {1} ∧
      discover [mkSink ['a'], mkSink ['b']] {0, 1} =
        (if ∀ i ∈ ({0, 1} : Finset NodeId),
            fcAt [mkSink ['a'], mkSink ['b']] i = true then .ok {0, 1}
          else .error .incompleteGraph) := by
  have s1 : DStep [mkSink ['a'], mkSink ['b']] ({0, 1}, ∅) ({1}, {0}) :=
    ⟨0, by decide, by decide⟩
  have s2 : DStep [mkSink ['a'], mkSink ['b']] ({1}, {0}) (∅, {0, 1}) :=
    ⟨1, by decide, by decide⟩
  have s1' : DStep [mkSink ['a'], mkSink ['b']] ({0, 1}, ∅) ({0}, {1}) :=
    ⟨1, by decide, by decide⟩
  have s2' : DStep [mkSink ['a'], mkSink ['b']] ({0}, {1}) (∅, insert 0 {1}) :=
    ⟨0, by decide, by decide⟩
  have hA : Relation.ReflTransGen (DStep [mkSink ['a'], mkSink ['b']])
      ({0, 1}, ∅) (∅, {0, 1}) :=
    Relation.ReflTransGen.tail (Relation.ReflTransGen.single s1) s2
  have hB : Relation.ReflTransGen (DStep [mkSink ['a'], mkSink ['b']])
      ({0, 1}, ∅) (∅, insert 0 {1}) :=
    Relation.ReflTransGen.tail (Relation.ReflTransGen.single s1') s2'
  constructor
  · exact c9_discover_order_independent.1 _ {0, 1} _ _ hA hB
  · exact c9_discover_order_independent.2 _ {0, 1} _ (by decide) (by decide) hA

/-! ## Claim C7: reuse in the bio-inspired builder -/

/-- C7.  In any graph `generate` builds with the bio-inspired algorithm, at
most one `Inventory` exists per word (created once per distinct word, hence
shared by every consumer) and at most one `Machine` per `(left, right)`
input pair; and in the concrete `{'ab', 'bc', 'abc'}` run, the unique
`Inv('b')` feeds both `Machine(b,c)` and `Machine(a,b)`, while the unique
`Inv('abc')` is fed by the two machines `Machine(a,bc)` and
`Machine(ab,c)`. -/
theorem c7_bio_reuse :
    (∀ (words : List Word) (fuel : Nat) (g : Graph) (d : Finset NodeId),
      generate_bio words fuel = .ok (g, d) →
      (∀ (i j : NodeId) (ni nj : NodeData), g[i]? = some ni → g[j]? = some nj →
        ni.kind = .inventory → nj.kind = .inventory → nodeWord ni = nodeWord nj →
        i = j) ∧
      (∀ (i j : NodeId) (ni nj : NodeData), g[i]? = some ni → g[j]? = some nj →
        ni.kind = .machine → nj.kind = .machine → ni.inputs = nj.inputs → i = j)) ∧
    generate_bio [['a', 'b'], ['b', 'c'], ['a', 'b', 'c']] 99 =
      .ok (bioAbcG, bioAbcD) ∧
    (bioAbcG[14]?).map (fun n => (n.kind, nodeWord n, n.output_nodes)) =
      some (.inventory, ['b'], [13, 15]) ∧
    (bioAbcG[13]?).map NodeData.inputs = some [['b'], ['c']] ∧
    (bioAbcG[15]?).map NodeData.inputs = some [['a'], ['b']] ∧
    (bioAbcG[8]?).map (fun n => (n.kind, nodeWord n, n.input_nodes)) =
      some (.inventory, ['a', 'b', 'c'], [9, 11]) ∧
    (bioAbcG[9]?).map NodeData.inputs = some [['a'], ['b', 'c']] ∧
    (bioAbcG[11]?).map NodeData.inputs = some [['a', 'b'], ['c']] := by
  refine ⟨?_, rfl, rfl, rfl, rfl, rfl, rfl, rfl⟩
  intro words fuel g d h
  simp only [generate_bio] at h
  split at h
  · exact Except.noConfusion h
  · rename_i gbio hform
    split at h
    · exact Except.noConfusion h
    · rename_i dd hdisc
      have hpair : (gbio, dd) = (g, d) := Except.ok.inj h
      rcases Prod.mk.injEq gbio dd g d ▸ hpair with ⟨rfl, rfl⟩
      simp only [form_bio_inspired_assembly] at hform
      split at hform
      · exact Except.noConfusion hform
      · rename_i st1 hsl
        split at hform
        · exact Except.noConfusion hform
        · rename_i st2 hrun
          have hgeq : st2.g = gbio := Except.ok.inj hform
          subst hgeq
          have hno0 : noInvMach ((mkSources (charsOf words) (mkSinks words []).1).1) := by
            apply mkSourcesGo_noInvMach
            apply mkSinksGo_noInvMach
            intro id n hn
            simp at hn
          have hinit : BioInv ⟨(mkSources (charsOf words) (mkSinks words []).1).1,
              [], [], []⟩ := by
            refine ⟨⟨?_, ?_⟩, ?_, ?_⟩
            · intro w id hl
              exact Option.noConfusion hl
            · intro id n hn hk
              exact absurd hk (hno0 id n hn).1
            · intro p id hl
              exact Option.noConfusion hl
            · intro id n hn hk
              exact absurd hk (hno0 id n hn).2
          have hkeys : (((mkSinks words []).2).map Prod.fst).Nodup :=
            mkSinksGo_keys_nodup words [] [] (by simp)
          have hinv1 : BioInv st1 :=
            bioSinkLoop_inv _ _ _ hsl hinit (fun p _ => rfl) hkeys
          have hinv2 : BioInv st2 := bioRun_inv fuel _ _ hrun hinv1
          constructor
          · intro i j ni nj hi hj hki hkj hw
            have h1 := hinv2.1.2 i ni hi hki
            have h2 := hinv2.1.2 j nj hj hkj
            rw [hw] at h1
            rw [h1] at h2
            exact Option.some.inj h2
          · intro i j ni nj hi hj hki hkj hin
            obtain ⟨l, r, hin1, hl1⟩ := hinv2.2.2 i ni hi hki
            obtain ⟨l', r', hin2, hl2⟩ := hinv2.2.2 j nj hj hkj
            rw [hin, hin2] at hin1
            rcases List.cons.inj hin1 with ⟨rfl, htail⟩
            rcases List.cons.inj htail with ⟨rfl, -⟩
            rw [hl1] at hl2
            exact Option.some.inj hl2

/-- C7 witness: the general reuse theorem applied to the concrete
`{'ab', 'bc', 'abc'}` generation. -/
theorem c7_bio_reuse_witness :
    ∀ (i j : NodeId) (ni nj : NodeData),
      bioAbcG[i]? = some ni → bioAbcG[j]? = some nj →
      ni.kind = .inventory → nj.kind = .inventory → nodeWord ni = nodeWord nj →
      i = j :=
  (c7_bio_reuse.1 [['a', 'b'], ['b', 'c'], ['a', 'b', 'c']] 99 bioAbcG bioAbcD rfl).1

/-! ## Claim C1: generation is not total -/

/-- C1: evaluating the code at the failing inputs.  `generate` with the
linear algorithm and the single-character output word `'a'` raises
`KeyError('')` while building (the unchecked `split_word('a', 1)` yields an
empty right half, which is then split again and looked up among the
sources); with the team algorithm and the same word the system is rejected
at discovery; with late differentiation and an output word that is itself a
standard word, the sink loop raises `KeyError` reading the not-yet-filled
standard-inventory dict. -/
theorem c1_generation_not_total :
    generate_linear [['a']] 20 = .error (.keyErr []) ∧
      generate_team [['a']] 20 = .error .incompleteGraph ∧
      generate_late [['b', 'c']] [['b', 'c']] 20 = .error (.keyErr ['b', 'c']) := by
  exact ⟨rfl, rfl, rfl⟩

/-! ## Claim C6: behavior on a missing raw source -/

/-- C6 counterexample.  The claim says generation itself never raises on a
missing raw source; but the linear builder, on output `"ab"` with only the
source `'a'` supplied, raises `KeyError('b')` during generation (its
`sources[w_left]` lookup is unguarded) — the failure never reaches the
discovery step. -/
theorem c6_linear_raises_at_generation :
    form_linear_assembly missSources missSinks missG0 30 = .error (.keyErr ['b']) := by
  exact rfl

/-- C6 as amended.  With output word `"ab"` and only `'a'` supplied: the
bio-inspired and product-focused-team builders complete without raising and
the gap is surfaced by the subsequent discovery as `IncompleteGraph`; the
linear builder instead raises `KeyError('b')` during generation itself; and
the component and late-differentiation builders never terminate (they
re-queue an inventory for the same word forever, here proved for every
fuel). -/
theorem c6_missing_source_behavior :
    (form_bio_inspired_assembly missSources missSinks missG0 30 = .ok bioMissG ∧
      discover bioMissG {1} = .error .incompleteGraph) ∧
    (form_product_focussed_team_assembly missSources missSinks missG0 30 =
        .ok teamMissG ∧
      discover teamMissG {1} = .error .incompleteGraph) ∧
    form_linear_assembly missSources missSinks missG0 30 = .error (.keyErr ['b']) ∧
    (∀ fuel, form_component_assembly missSources missSinks missG0 fuel =
      .error .outOfFuel) ∧
    (∀ fuel, form_late_product_differentiation missSources missSinks [] missG0 fuel =
      .error .outOfFuel) := by
  refine ⟨⟨rfl, rfl⟩, ⟨rfl, rfl⟩, rfl, ?_, ?_⟩
  · intro fuel
    match fuel with
    | 0 => rfl
    | (n + 1) =>
      have hstep : form_component_assembly missSources missSinks missG0 (n + 1) =
          componentRun missSources n compMissG1 [5, 4] := rfl
      rw [hstep]
      exact componentRun_hang (show alookup missSources ['b'] = none from rfl)
        n compMissG1 [5, 4]
        ⟨5, [4], ⟨.inventory, [['b']], [['b']], [], [3]⟩, rfl, rfl, rfl, rfl, rfl⟩
  · intro fuel
    match fuel with
    | 0 => rfl
    | 1 => rfl
    | (n + 2) =>
      have hhang := lateRun_hang (show alookup missSources [] = none from rfl)
        n lateMissSt2
        ⟨8, [7, 4], ⟨.inventory, [[]], [[]], [], [6]⟩, rfl, rfl, rfl, rfl, rfl⟩
      have hform :
          form_late_product_differentiation missSources missSinks [] missG0 (n + 2) =
            Except.bind (lateRun [] missSources n lateMissSt2)
              (fun st => Except.ok st.g) := rfl
      rw [hform, hhang]
      rfl

/-- C10 witness: the atomicity theorem applied to a concrete success
(`Inventory('a') → Sink('a')`) and a concrete failure
(`Inventory('a') → Inventory('a')`, a kind violation). -/
theorem c10_form_edge_atomic_witness :
    (NT.form_edge [mkInventory ['a'], mkSink ['a']] 0 1).1[0]?.map NodeData.output_nodes =
        some [1] ∧
      (NT.form_edge [mkInventory ['a'], mkInventory ['a']] 0 1).1 =
        [mkInventory ['a'], mkInventory ['a']] := by
  constructor
  · have h := ((c10_form_edge_atomic [mkInventory ['a'], mkSink ['a']] 0 1).2 (by rfl)).1
    rw [h]; rfl
  · exact (c10_form_edge_atomic [mkInventory ['a'], mkInventory ['a']] 0 1).1 (by rfl)

/-! ## Late differentiation per-word synthesis (claim C8) -/

theorem stdBetter_eq_some {w : Word} {acc : Option Word} {c b : Word}
    (h : stdBetter w acc c = some b) :
    acc = some b ∨ (b = c ∧ c ≠ w ∧ containsSub c w = true) := by
  unfold stdBetter at h
  split_ifs at h with hc
  · simp only [Bool.and_eq_true, decide_eq_true_eq] at hc
    exact Or.inr ⟨(Option.some.inj h).symm, hc.1.1, hc.1.2⟩
  · exact Or.inl h

theorem stdBetter_some_of_some {w : Word} (a c : Word) :
    ∃ b, stdBetter w (some a) c = some b := by
  unfold stdBetter
  split_ifs with hc
  · exact ⟨c, rfl⟩
  · exact ⟨a, rfl⟩

theorem stdBetter_mono {w : Word} {a c b : Word}
    (h : stdBetter w (some a) c = some b) : a.length ≤ b.length := by
  unfold stdBetter at h
  split_ifs at h with hc
  · simp only [Bool.and_eq_true, decide_eq_true_eq] at hc
    exact le_trans (le_of_lt hc.2) (le_of_eq (congrArg List.length (Option.some.inj h)))
  · exact le_of_eq (congrArg List.length (Option.some.inj h))

theorem stdBetter_improves {w : Word} (acc : Option Word) (c : Word)
    (hne : c ≠ w) (hsub : containsSub c w = true) :
    ∃ b, stdBetter w acc c = some b ∧ c.length ≤ b.length := by
  cases acc with
  | none =>
    refine ⟨c, ?_, le_refl _⟩
    simp [stdBetter, hne, hsub]
  | some a =>
    by_cases hlen : a.length < c.length
    · refine ⟨c, ?_, le_refl _⟩
      simp [stdBetter, hne, hsub, hlen]
    · refine ⟨a, ?_, Nat.le_of_not_lt hlen⟩
      simp [stdBetter, hlen]

theorem foldl_stdBetter_some_stays {w : Word} :
    ∀ (l : List Word) (a : Word), ∃ b, List.foldl (stdBetter w) (some a) l = some b
  | [], a => ⟨a, rfl⟩
  | c :: l, a => by
    obtain ⟨b0, hb0⟩ := @stdBetter_some_of_some w a c
    obtain ⟨b, hb⟩ := foldl_stdBetter_some_stays l b0
    exact ⟨b, by rw [List.foldl_cons, hb0, hb]⟩

theorem foldl_stdBetter_mono {w : Word} :
    ∀ (l : List Word) (a b : Word),
      List.foldl (stdBetter w) (some a) l = some b → a.length ≤ b.length
  | [], a, b, h => by
    rw [List.foldl_nil] at h
    exact le_of_eq (congrArg List.length (Option.some.inj h))
  | c :: l, a, b, h => by
    rw [List.foldl_cons] at h
    obtain ⟨b0, hb0⟩ := @stdBetter_some_of_some w a c
    rw [hb0] at h
    exact le_trans (stdBetter_mono hb0) (foldl_stdBetter_mono l b0 b h)

theorem foldl_stdBetter_props {w : Word} :
    ∀ (l : List Word) (acc : Option Word) (b : Word),
      List.foldl (stdBetter w) acc l = some b →
      acc = some b ∨ (b ∈ l ∧ b ≠ w ∧ containsSub b w = true)
  | [], acc, b, h => Or.inl (by rwa [List.foldl_nil] at h)
  | c :: l, acc, b, h => by
    rw [List.foldl_cons] at h
    cases foldl_stdBetter_props l (stdBetter w acc c) b h with
    | inr hr => exact Or.inr ⟨List.mem_cons_of_mem c hr.1, hr.2⟩
    | inl hl =>
      cases stdBetter_eq_some hl with
      | inl h1 => exact Or.inl h1
      | inr h2 =>
        obtain ⟨rfl, hne, hcs⟩ := h2
        exact Or.inr ⟨List.mem_cons_self b l, hne, hcs⟩

theorem foldl_stdBetter_max {w : Word} :
    ∀ (l : List Word) (acc : Option Word) (b : Word),
      List.foldl (stdBetter w) acc l = some b →
      ∀ c ∈ l, c ≠ w → containsSub c w = true → c.length ≤ b.length
  | [], _, _, _, c, hc, _, _ => absurd hc (List.not_mem_nil c)
  | d :: l, acc, b, h, c, hc, hne, hcs => by
    rw [List.foldl_cons] at h
    rcases List.mem_cons.mp hc with rfl | hmem
    · obtain ⟨b0, hb0, hlen⟩ := stdBetter_improves acc c hne hcs
      rw [hb0] at h
      exact le_trans hlen (foldl_stdBetter_mono l b0 b h)
    · exact foldl_stdBetter_max l (stdBetter w acc d) b h c hmem hne hcs

theorem foldl_stdBetter_none {w : Word} :
    ∀ (l : List Word) (acc : Option Word),
      List.foldl (stdBetter w) acc l = none →
      ∀ c ∈ l, c = w ∨ containsSub c w = false
  | [], _, _, c, hc => absurd hc (List.not_mem_nil c)
  | d :: l, acc, h, c, hc => by
    rw [List.foldl_cons] at h
    rcases List.mem_cons.mp hc with rfl | hmem
    · by_contra hcon
      push_neg at hcon
      obtain ⟨hne, hcsf⟩ := hcon
      have hcs : containsSub c w = true := by
        cases hx : containsSub c w
        · exact absurd hx hcsf
        · rfl
      obtain ⟨b0, hb0, -⟩ := stdBetter_improves acc c hne hcs
      rw [hb0] at h
      obtain ⟨b, hb⟩ := foldl_stdBetter_some_stays l b0
      rw [hb] at h
      exact Option.noConfusion h
    · exact foldl_stdBetter_none l _ h c hmem

/-- The selected standard word is a proper substring of `w` of maximal
length among the standard proper substrings. -/
theorem get_longest_spec {std : List Word} {w wst : Word}
    (h : get_longest_standard_product_in std w = some wst) :
    wst ∈ std ∧ wst ≠ w ∧ containsSub wst w = true ∧
      ∀ c ∈ std, c ≠ w → containsSub c w = true → c.length ≤ wst.length := by
  unfold get_longest_standard_product_in at h
  rcases foldl_stdBetter_props std none wst h with h1 | h1
  · exact Option.noConfusion h1
  · exact ⟨h1.1, h1.2.1, h1.2.2, foldl_stdBetter_max std none wst h⟩

/-- When the fold finds nothing, no standard word is a proper substring. -/
theorem get_longest_none {std : List Word} {w : Word}
    (h : get_longest_standard_product_in std w = none) :
    ∀ c ∈ std, c = w ∨ containsSub c w = false :=
  foldl_stdBetter_none std none h

theorem hasLead_decomp : ∀ (p w : Word), hasLead p w = true → p ++ w.drop p.length = w
  | [], w, _ => by simp
  | a :: p, [], h => by simp [hasLead] at h
  | a :: p, b :: w, h => by
    simp only [hasLead, Bool.and_eq_true, decide_eq_true_eq] at h
    obtain ⟨rfl, h2⟩ := h
    have ih := hasLead_decomp p w h2
    simp only [List.length_cons, List.cons_append, List.drop_succ_cons]
    rw [ih]

theorem subIndex_decomp : ∀ (w p : Word) (i : Nat), subIndex p w = some i →
    w.take i ++ p ++ w.drop (i + p.length) = w
  | [], p, i, h => by
    simp only [subIndex] at h
    split_ifs at h with hl
    · have hi : i = 0 := (Option.some.inj h).symm
      subst hi
      simpa using hasLead_decomp p [] hl
  | b :: w, p, i, h => by
    simp only [subIndex] at h
    split_ifs at h with hl
    · have hi : i = 0 := (Option.some.inj h).symm
      subst hi
      simpa using hasLead_decomp p (b :: w) hl
    · cases hsub : subIndex p w with
      | none => rw [hsub] at h; exact Option.noConfusion h
      | some i' =>
        rw [hsub] at h
        have hi : i = i' + 1 := (Option.some.inj (by simpa using h)).symm
        subst hi
        have ih := subIndex_decomp w p i' hsub
        have hd : i' + 1 + p.length = (i' + p.length) + 1 := by omega
        rw [hd]
        simp only [List.take_succ_cons, List.drop_succ_cons, List.cons_append]
        rw [List.append_assoc] at ih ⊢
        rw [ih]

/-- The head/standard/tail decomposition used by the late-differentiation
builder reassembles to the original word. -/
theorem late_decomp {w wst : Word} (h : containsSub wst w = true) :
    w.take ((subIndex wst w).getD 0) ++ wst ++
      w.drop ((subIndex wst w).getD 0 + wst.length) = w := by
  obtain ⟨i, hi⟩ := Option.isSome_iff_exists.mp h
  rw [hi]
  simpa using subIndex_decomp w wst i hi

theorem shapeExt_refl (g : Graph) : ShapeExt g g :=
  ⟨le_refl _, fun _ _ => rfl⟩

theorem shapeExt_append (g : Graph) (x : NodeData) : ShapeExt g (g ++ [x]) := by
  refine ⟨by simp, fun k hk => ?_⟩
  rw [List.getElem?_append_left hk]

theorem shapeExt_trans {g g' g'' : Graph} (h1 : ShapeExt g g') (h2 : ShapeExt g' g'') :
    ShapeExt g g'' :=
  ⟨le_trans h1.1 h2.1, fun k hk => (h2.2 k (lt_of_lt_of_le hk h1.1)).trans (h1.2 k hk)⟩

/-- A shape-preserving rewrite of the extension's endpoint. -/
theorem shapeExt_congr {g g₁ g₂ : Graph} (h : ShapeExt g g₁)
    (hlen : g₂.length = g₁.length)
    (hsh : ∀ k : NodeId, (g₂[k]?).map shapeOf = (g₁[k]?).map shapeOf) :
    ShapeExt g g₂ :=
  ⟨hlen ▸ h.1, fun k hk => (hsh k).trans (h.2 k hk)⟩

theorem addedShapes_refl (g : Graph) : addedShapes g g = [] := by
  simp [addedShapes, List.drop_length]

theorem addedShapes_append {g g₁ : Graph} (x : NodeData) (hle : g.length ≤ g₁.length) :
    addedShapes g (g₁ ++ [x]) = addedShapes g g₁ ++ [shapeOf x] := by
  unfold addedShapes
  rw [List.drop_append_of_le_length hle, List.map_append]
  rfl

theorem addedShapes_congr {g g₁ g₂ : Graph}
    (hsh : ∀ k : NodeId, (g₂[k]?).map shapeOf = (g₁[k]?).map shapeOf) :
    addedShapes g g₂ = addedShapes g g₁ := by
  unfold addedShapes
  apply List.ext_getElem?
  intro k
  rw [List.getElem?_map, List.getElem?_map, List.getElem?_drop, List.getElem?_drop]
  exact hsh (g.length + k)

theorem addedShapes_trans {g g' g'' : Graph} (h1 : ShapeExt g g') (h2 : ShapeExt g' g'') :
    addedShapes g g'' = addedShapes g g' ++ addedShapes g' g'' := by
  apply List.ext_getElem?
  intro k
  have hgle := h1.1
  have hlen1 : (addedShapes g g').length = g'.length - g.length := by
    simp [addedShapes, List.length_drop]
  by_cases hk : k < g'.length - g.length
  · rw [List.getElem?_append_left (show k < (addedShapes g g').length from by
      rw [hlen1]; exact hk)]
    unfold addedShapes
    rw [List.getElem?_map, List.getElem?_map, List.getElem?_drop, List.getElem?_drop]
    have hlt : g.length + k < g'.length := by omega
    exact h2.2 (g.length + k) hlt
  · rw [List.getElem?_append_right (show (addedShapes g g').length ≤ k from by
      rw [hlen1]; exact Nat.le_of_not_lt hk)]
    rw [hlen1]
    unfold addedShapes
    rw [List.getElem?_map, List.getElem?_map, List.getElem?_drop, List.getElem?_drop]
    have harith : g'.length + (k - (g'.length - g.length)) = g.length + k := by omega
    rw [harith]

theorem addedMachineInputs_trans {g g' g'' : Graph} (h1 : ShapeExt g g')
    (h2 : ShapeExt g' g'') :
    addedMachineInputs g g'' = addedMachineInputs g g' ++ addedMachineInputs g' g'' := by
  unfold addedMachineInputs
  rw [addedShapes_trans h1 h2, List.filterMap_append]

theorem addedInventoryWords_trans {g g' g'' : Graph} (h1 : ShapeExt g g')
    (h2 : ShapeExt g' g'') :
    addedInventoryWords g g'' = addedInventoryWords g g' ++ addedInventoryWords g' g'' := by
  unfold addedInventoryWords
  rw [addedShapes_trans h1 h2, List.filterMap_append]

theorem addedMachineInputs_nil (g : Graph) : addedMachineInputs g g = [] := by
  simp [addedMachineInputs, addedShapes_refl]

theorem addedMachineInputs_inv (g : Graph) (w' : Word) :
    addedMachineInputs g (g ++ [mkInventory w']) = [] := by
  unfold addedMachineInputs
  rw [show addedShapes g (g ++ [mkInventory w']) = [shapeOf (mkInventory w')] from by
    rw [addedShapes_append _ (le_refl _), addedShapes_refl, List.nil_append]]
  rfl

/-- A successful `get_inventory_for_standard_product` call either reuses an
existing inventory or appends exactly one fresh inventory for the word. -/
theorem getStdInv_graph {std : List Word} {st : LateState} {w' : Word}
    {st1 : LateState} {id : NodeId}
    (h : getStdInv std st w' = .ok (st1, id)) :
    st1.g = st.g ∨ st1.g = st.g ++ [mkInventory w'] := by
  unfold getStdInv at h
  split_ifs at h with hstd
  · split at h
    · exact Or.inl (congrArg (fun p => p.1.g) (Except.ok.inj h)).symm
    · simp only [addNode] at h
      exact Or.inr (congrArg (fun p => p.1.g) (Except.ok.inj h)).symm

/-- The side-inventory step either reuses the graph or appends exactly one
inventory for the side word. -/
theorem lateOptInv_graph {std : List Word} {st : LateState} {w' : Word}
    {st1 : LateState} {o : Option NodeId}
    (h : lateOptInv std st w' = .ok (st1, o)) :
    st1.g = st.g ∨ st1.g = st.g ++ [mkInventory w'] := by
  unfold lateOptInv at h
  split_ifs at h with hpos hstd
  · split at h
    · exact Except.noConfusion h
    · rename_i st2 ih heq
      have hinj := Except.ok.inj h
      have hst : st2 = st1 := congrArg Prod.fst hinj
      exact hst ▸ getStdInv_graph heq
  · simp only [addNode] at h
    exact Or.inr (congrArg (fun p => p.1.g) (Except.ok.inj h)).symm
  · exact Or.inl (congrArg (fun p => p.1.g) (Except.ok.inj h)).symm

/-- Packaging: the two reuse-or-append steps extend the graph without
creating machines. -/
theorem lateOptInv_added {std : List Word} {st : LateState} {w' : Word}
    {st1 : LateState} {o : Option NodeId}
    (h : lateOptInv std st w' = .ok (st1, o)) :
    ShapeExt st.g st1.g ∧ addedMachineInputs st.g st1.g = [] := by
  rcases lateOptInv_graph h with hg | hg <;> rw [hg]
  · exact ⟨shapeExt_refl _, addedMachineInputs_nil _⟩
  · exact ⟨shapeExt_append _ _, addedMachineInputs_inv _ _⟩

/-- A successful edge keeps the added-node bookkeeping unchanged. -/
theorem edge_preserves {g gA gB : Graph} {i j : NodeId}
    (he : WW.form_edge gA i j = .ok gB) (hprev : ShapeExt g gA) :
    ShapeExt g gB ∧ addedShapes g gB = addedShapes g gA := by
  obtain ⟨hlen, hsh⟩ := ww_form_edge_shape he
  exact ⟨shapeExt_congr hprev hlen hsh, addedShapes_congr hsh⟩

/-- Allocating a node appends its shape to the added-node bookkeeping. -/
theorem append_extends {g gA : Graph} (x : NodeData) (hprev : ShapeExt g gA) :
    ShapeExt g (gA ++ [x]) ∧
      addedShapes g (gA ++ [x]) = addedShapes g gA ++ [shapeOf x] :=
  ⟨shapeExt_trans hprev (shapeExt_append gA x), addedShapes_append x hprev.1⟩

/-- Two-machine branch of the late-differentiation synthesis: non-empty head
and tail build exactly `Machine(head, standard)` and
`Machine(head+standard, tail)` plus an intermediate inventory for
`head+standard`. -/
theorem lateCombine_both {std : List Word} {st2 : LateState} {invId : NodeId}
    {wst wHead wTail : Word} {ih it : NodeId} {st' : LateState}
    (hH : wHead.length > 0) (hT : wTail.length > 0)
    (h : lateCombine std st2 invId wst wHead wTail (some ih) (some it) = .ok st') :
    ShapeExt st2.g st'.g ∧
      addedMachineInputs st2.g st'.g = [[wHead, wst], [wHead ++ wst, wTail]] ∧
      (wHead ++ wst) ∈ addedInventoryWords st2.g st'.g := by
  unfold lateCombine at h
  rw [if_pos ⟨hH, hT⟩] at h
  simp only [addNode] at h
  split at h
  · exact Except.noConfusion h
  rename_i g3 hedge1
  split at h
  · exact Except.noConfusion h
  rename_i g4 hedge2
  split at h
  · exact Except.noConfusion h
  rename_i st3 istd hstd
  split at h
  · exact Except.noConfusion h
  rename_i g5 hedge3
  split at h
  · exact Except.noConfusion h
  rename_i g7 hedge4
  split at h
  · exact Except.noConfusion h
  rename_i g8 hedge5
  split at h
  · exact Except.noConfusion h
  rename_i g9 hedge6
  cases Except.ok.inj h
  have p1 := append_extends (mkInventory (wHead ++ wst)) (shapeExt_refl st2.g)
  have p2 := append_extends (mkMachine wHead wst) p1.1
  have e1 := edge_preserves hedge1 p2.1
  have e2 := edge_preserves hedge2 e1.1
  have hg : st3.g = g4 ∨ st3.g = g4 ++ [mkInventory wst] := getStdInv_graph hstd
  show ShapeExt st2.g g9 ∧ addedMachineInputs st2.g g9 = _ ∧
    (wHead ++ wst) ∈ addedInventoryWords st2.g g9
  rcases hg with hg | hg <;> rw [hg] at hedge3
  · have e3 := edge_preserves hedge3 e2.1
    have p6 := append_extends (mkMachine (wHead ++ wst) wTail) e3.1
    have e4 := edge_preserves hedge4 p6.1
    have e5 := edge_preserves hedge5 e4.1
    have e6 := edge_preserves hedge6 e5.1
    have afinal : addedShapes st2.g g9 =
        [shapeOf (mkInventory (wHead ++ wst)), shapeOf (mkMachine wHead wst),
          shapeOf (mkMachine (wHead ++ wst) wTail)] := by
      rw [e6.2, e5.2, e4.2, p6.2, e3.2, e2.2, e1.2, p2.2, p1.2, addedShapes_refl]
      rfl
    refine ⟨e6.1, ?_, ?_⟩
    · unfold addedMachineInputs
      rw [afinal]
      rfl
    · unfold addedInventoryWords
      rw [afinal]
      simp [shapeOf, mkInventory, mkMachine]
  · have pstd := append_extends (mkInventory wst) e2.1
    have e3 := edge_preserves hedge3 pstd.1
    have p6 := append_extends (mkMachine (wHead ++ wst) wTail) e3.1
    have e4 := edge_preserves hedge4 p6.1
    have e5 := edge_preserves hedge5 e4.1
    have e6 := edge_preserves hedge6 e5.1
    have afinal : addedShapes st2.g g9 =
        [shapeOf (mkInventory (wHead ++ wst)), shapeOf (mkMachine wHead wst),
          shapeOf (mkInventory wst), shapeOf (mkMachine (wHead ++ wst) wTail)] := by
      rw [e6.2, e5.2, e4.2, p6.2, e3.2, pstd.2, e2.2, e1.2, p2.2, p1.2, addedShapes_refl]
      rfl
    refine ⟨e6.1, ?_, ?_⟩
    · unfold addedMachineInputs
      rw [afinal]
      rfl
    · unfold addedInventoryWords
      rw [afinal]
      simp [shapeOf, mkInventory, mkMachine]

/-- One-machine branch for an empty tail: the single machine combines the
head with the standard word. -/
theorem lateCombine_headOnly {std : List Word} {st2 : LateState} {invId : NodeId}
    {wst wHead wTail : Word} {ih : NodeId} {tailInv : Option NodeId} {st' : LateState}
    (hH : wHead.length > 0) (hT : wTail.length = 0)
    (h : lateCombine std st2 invId wst wHead wTail (some ih) tailInv = .ok st') :
    ShapeExt st2.g st'.g ∧
      addedMachineInputs st2.g st'.g = [[wHead, wst]] := by
  unfold lateCombine at h
  rw [if_neg (by simp [hT])] at h
  rw [if_pos hH] at h
  simp only [addNode] at h
  split at h
  · exact Except.noConfusion h
  rename_i g2 hedge1
  split at h
  · exact Except.noConfusion h
  rename_i st3 istd hstd
  split at h
  · exact Except.noConfusion h
  rename_i g3 hedge2
  split at h
  · exact Except.noConfusion h
  rename_i g4 hedge3
  cases Except.ok.inj h
  have p1 := append_extends (mkMachine wHead wst) (shapeExt_refl st2.g)
  have e1 := edge_preserves hedge1 p1.1
  have hg : st3.g = g2 ∨ st3.g = g2 ++ [mkInventory wst] := getStdInv_graph hstd
  show ShapeExt st2.g g4 ∧ addedMachineInputs st2.g g4 = _
  rcases hg with hg | hg <;> rw [hg] at hedge2
  · have e2 := edge_preserves hedge2 e1.1
    have e3 := edge_preserves hedge3 e2.1
    have afinal : addedShapes st2.g g4 = [shapeOf (mkMachine wHead wst)] := by
      rw [e3.2, e2.2, e1.2, p1.2, addedShapes_refl]
      rfl
    refine ⟨e3.1, ?_⟩
    unfold addedMachineInputs
    rw [afinal]
    rfl
  · have pstd := append_extends (mkInventory wst) e1.1
    have e2 := edge_preserves hedge2 pstd.1
    have e3 := edge_preserves hedge3 e2.1
    have afinal : addedShapes st2.g g4 =
        [shapeOf (mkMachine wHead wst), shapeOf (mkInventory wst)] := by
      rw [e3.2, e2.2, pstd.2, e1.2, p1.2, addedShapes_refl]
      rfl
    refine ⟨e3.1, ?_⟩
    unfold addedMachineInputs
    rw [afinal]
    rfl

/-- One-machine branch for an empty head: the single machine combines the
standard word with the tail. -/
theorem lateCombine_tailOnly {std : List Word} {st2 : LateState} {invId : NodeId}
    {wst wHead wTail : Word} {it : NodeId} {headInv : Option NodeId} {st' : LateState}
    (hH : wHead.length = 0) (hT : wTail.length > 0)
    (h : lateCombine std st2 invId wst wHead wTail headInv (some it) = .ok st') :
    ShapeExt st2.g st'.g ∧
      addedMachineInputs st2.g st'.g = [[wst, wTail]] := by
  unfold lateCombine at h
  rw [if_neg (by simp [hH])] at h
  rw [if_neg (by simp [hH])] at h
  rw [if_pos hT] at h
  simp only [addNode] at h
  split at h
  · exact Except.noConfusion h
  rename_i g2 hedge1
  split at h
  · exact Except.noConfusion h
  rename_i st3 istd hstd
  split at h
  · exact Except.noConfusion h
  rename_i g3 hedge2
  split at h
  · exact Except.noConfusion h
  rename_i g4 hedge3
  cases Except.ok.inj h
  have p1 := append_extends (mkMachine wst wTail) (shapeExt_refl st2.g)
  have e1 := edge_preserves hedge1 p1.1
  have hg : st3.g = g2 ∨ st3.g = g2 ++ [mkInventory wst] := getStdInv_graph hstd
  show ShapeExt st2.g g4 ∧ addedMachineInputs st2.g g4 = _
  rcases hg with hg | hg <;> rw [hg] at hedge2
  · have e2 := edge_preserves hedge2 e1.1
    have e3 := edge_preserves hedge3 e2.1
    have afinal : addedShapes st2.g g4 = [shapeOf (mkMachine wst wTail)] := by
      rw [e3.2, e2.2, e1.2, p1.2, addedShapes_refl]
      rfl
    refine ⟨e3.1, ?_⟩
    unfold addedMachineInputs
    rw [afinal]
    rfl
  · have pstd := append_extends (mkInventory wst) e1.1
    have e2 := edge_preserves hedge2 pstd.1
    have e3 := edge_preserves hedge3 e2.1
    have afinal : addedShapes st2.g g4 =
        [shapeOf (mkMachine wst wTail), shapeOf (mkInventory wst)] := by
      rw [e3.2, e2.2, pstd.2, e1.2, p1.2, addedShapes_refl]
      rfl
    refine ⟨e3.1, ?_⟩
    unfold addedMachineInputs
    rw [afinal]
    rfl

/-- No standard substring: the fallback builds a single machine splitting
the word at position 1, exactly as in the linear algorithm. -/
theorem lateSynth_fallback {std : List Word} {st : LateState} {invId : NodeId}
    {w : Word} {st' : LateState}
    (hsel : get_longest_standard_product_in std w = none)
    (h : lateSynth std st invId w = .ok st') :
    ShapeExt st.g st'.g ∧ addedMachineInputs st.g st'.g = [[w.take 1, w.drop 1]] := by
  simp only [lateSynth, hsel, WW.split_word, addNode] at h
  split at h
  · exact Except.noConfusion h
  rename_i g2 hedge1
  split at h
  · exact Except.noConfusion h
  rename_i g3 hedge2
  split at h
  · exact Except.noConfusion h
  rename_i g4 hedge3
  cases Except.ok.inj h
  show ShapeExt st.g g4 ∧ addedMachineInputs st.g g4 = _
  have p1 := append_extends (mkMachine (w.take 1) (w.drop 1)) (shapeExt_refl st.g)
  have e1 := edge_preserves hedge1 p1.1
  have p2 := append_extends (mkInventory (w.take 1)) e1.1
  have e2 := edge_preserves hedge2 p2.1
  have p3 := append_extends (mkInventory (w.drop 1)) e2.1
  have e3 := edge_preserves hedge3 p3.1
  have afinal : addedShapes st.g g4 =
      [shapeOf (mkMachine (w.take 1) (w.drop 1)), shapeOf (mkInventory (w.take 1)),
        shapeOf (mkInventory (w.drop 1))] := by
    rw [e3.2, p3.2, e2.2, p2.2, e1.2, p1.2, addedShapes_refl]
    rfl
  refine ⟨e3.1, ?_⟩
  unfold addedMachineInputs
  rw [afinal]
  rfl

/-- A non-empty side always yields a side inventory id. -/
theorem lateOptInv_isSome {std : List Word} {st : LateState} {w' : Word}
    {st1 : LateState} {o : Option NodeId}
    (h : lateOptInv std st w' = .ok (st1, o)) (hpos : w'.length > 0) :
    ∃ i, o = some i := by
  unfold lateOptInv at h
  rw [if_pos hpos] at h
  split_ifs at h with hstd
  · split at h
    · exact Except.noConfusion h
    · rename_i st2 ihn heq
      exact ⟨ihn, (congrArg Prod.snd (Except.ok.inj h)).symm⟩
  · simp only [addNode] at h
    exact ⟨_, (congrArg Prod.snd (Except.ok.inj h)).symm⟩

/-- C8: for every composite word `w` synthesized by the late-differentiation
body (a word that is not raw, handled by `lateSynth`): the algorithm selects
a standard word of maximal length among the standard words that are proper
substrings of `w`; if one exists `w` decomposes as head ++ standard ++ tail,
and with both sides non-empty exactly the two machines
`Machine(head, standard)` and `Machine(head+standard, tail)` are created
together with an intermediate inventory for `head+standard`, while an empty
head (resp. tail) makes exactly the one machine combining the standard word
with the non-empty side; if no standard substring exists, the fallback
creates exactly one machine for the `pos = 1` split as in the linear
algorithm. -/
theorem c8_late_word_synthesis (std : List Word)
    (sources : List (Word × NodeId)) (st : LateState) (invId : NodeId)
    (w : Word) (st' : LateState)
    (hw : wordAt st.g invId = w)
    (hsrc : alookup sources w = none)
    (h : lateSynth std st invId w = .ok st') :
    lateStep std sources st invId = .ok st' ∧
    (get_longest_standard_product_in std w = none →
      addedMachineInputs st.g st'.g = [[w.take 1, w.drop 1]]) ∧
    (∀ wst, get_longest_standard_product_in std w = some wst →
      wst ∈ std ∧ wst ≠ w ∧
      (∀ c ∈ std, c ≠ w → containsSub c w = true → c.length ≤ wst.length) ∧
      lateHead wst w ++ wst ++ lateTail wst w = w ∧
      (lateHead wst w ≠ [] → lateTail wst w ≠ [] →
        addedMachineInputs st.g st'.g =
          [[lateHead wst w, wst], [lateHead wst w ++ wst, lateTail wst w]] ∧
        (lateHead wst w ++ wst) ∈ addedInventoryWords st.g st'.g) ∧
      (lateHead wst w = [] →
        addedMachineInputs st.g st'.g = [[wst, lateTail wst w]]) ∧
      (lateTail wst w = [] → lateHead wst w ≠ [] →
        addedMachineInputs st.g st'.g = [[lateHead wst w, wst]])) := by
  refine ⟨?_, ?_, ?_⟩
  · simp only [lateStep, hw, hsrc]
    exact h
  · intro hsel
    exact (lateSynth_fallback hsel h).2
  · intro wst hsel
    obtain ⟨hmem, hne, hcs, hmax⟩ := get_longest_spec hsel
    have hdec : lateHead wst w ++ wst ++ lateTail wst w = w := by
      unfold lateHead lateTail
      exact late_decomp hcs
    simp only [lateSynth, hsel] at h
    split at h
    · exact Except.noConfusion h
    rename_i st1 headInv hopt1
    split at h
    · exact Except.noConfusion h
    rename_i st2 tailInv hopt2
    have ha1 := lateOptInv_added hopt1
    have ha2 := lateOptInv_added hopt2
    refine ⟨hmem, hne, hmax, hdec, ?_, ?_, ?_⟩
    · intro hHne hTne
      have hH : (lateHead wst w).length > 0 := List.length_pos.mpr hHne
      have hT : (lateTail wst w).length > 0 := List.length_pos.mpr hTne
      obtain ⟨ihh, rfl⟩ := lateOptInv_isSome hopt1 hH
      obtain ⟨itt, rfl⟩ := lateOptInv_isSome hopt2 hT
      have lc := lateCombine_both hH hT h
      have hext2 : ShapeExt st1.g st'.g := shapeExt_trans ha2.1 lc.1
      constructor
      · rw [addedMachineInputs_trans ha1.1 hext2, ha1.2,
          addedMachineInputs_trans ha2.1 lc.1, ha2.2, lc.2.1]
        rfl
      · rw [addedInventoryWords_trans ha1.1 hext2]
        apply List.mem_append_right
        rw [addedInventoryWords_trans ha2.1 lc.1]
        exact List.mem_append_right _ lc.2.2
    · intro hHe
      by_cases hTe : lateTail wst w = []
      · exfalso
        apply hne
        have := hdec
        rw [hHe, hTe] at this
        simpa using this
      · have hH0 : (lateHead wst w).length = 0 := by rw [hHe]; rfl
        have hT : (lateTail wst w).length > 0 := List.length_pos.mpr hTe
        obtain ⟨itt, rfl⟩ := lateOptInv_isSome hopt2 hT
        have lc := lateCombine_tailOnly hH0 hT h
        rw [addedMachineInputs_trans ha1.1 (shapeExt_trans ha2.1 lc.1), ha1.2,
          addedMachineInputs_trans ha2.1 lc.1, ha2.2, lc.2]
        rfl
    · intro hTe hHne
      have hH : (lateHead wst w).length > 0 := List.length_pos.mpr hHne
      have hT0 : (lateTail wst w).length = 0 := by rw [hTe]; rfl
      obtain ⟨ihh, rfl⟩ := lateOptInv_isSome hopt1 hH
      have lc := lateCombine_headOnly hH hT0 h
      rw [addedMachineInputs_trans ha1.1 (shapeExt_trans ha2.1 lc.1), ha1.2,
        addedMachineInputs_trans ha2.1 lc.1, ha2.2, lc.2]
      rfl

/-- C8 witness: synthesizing `"abcd"` with standard set `{"bc"}` creates
exactly the machines `(a, bc)` and `(abc, d)` plus an intermediate
inventory for `"abc"`. -/
theorem c8_late_word_synthesis_witness :
    addedMachineInputs c8DemoG.g c8Demo.g =
        [[['a'], ['b', 'c']], [['a', 'b', 'c'], ['d']]] ∧
      ['a', 'b', 'c'] ∈ addedInventoryWords c8DemoG.g c8Demo.g := by
  have happ := c8_late_word_synthesis [['b', 'c']] [] c8DemoG 0
    ['a', 'b', 'c', 'd'] c8Demo rfl rfl rfl
  have hsome := happ.2.2 ['b', 'c'] rfl
  have hboth := hsome.2.2.2.2.1 (by decide) (by decide)
  exact ⟨hboth.1, hboth.2⟩

end Wordmill

